import Mathlib

/-!
Verification development for the `comparator` hierarchical catalog builder
(modules `comparator/find.py`, `comparator/db.py`, `comparator/initialize.py`).

Shallow embedding conventions:

* Filesystem paths are modelled as lists of path segments (`FPath := List String`);
  `os.path.join(p, name)` for a relative single-segment `name` is `p ++ [name]`.
* A real filesystem tree is an `Entry`: a directory (with a `readable` flag
  modelling whether `os.scandir` succeeds on it — an `OSError` at the initial
  `scandir` call and an `OSError` partway through the iteration are
  observationally identical in `walk`, which returns without yielding in both
  cases), a regular file with stat data, or a symbolic link carrying its raw,
  unresolved target string.  `entry.is_dir(follow_symlinks=False)` is `isDirE`
  (a symlink is never a directory), `entry.is_symlink()` is `isLinkE`.
* The SQLAlchemy tables become lists of rows (`FSRow`, `DirRow`, `FileRow`);
  `Session.add` appends, `Query.one()` becomes a match on the filtered list
  (`[]`/`[r]`/more), and the uncaught `NoResultFound`/`MultipleResultsFound`/
  `KeyError`/`OSError` exceptions of the scripts become an error component of
  the result, with the database state at the point of failure preserved
  (committed work survives a crash).
* Python dicts keyed by path (`parents` in `find.directories`) become
  association lists with prepend-on-update and first-match lookup, which has
  the same observable semantics.
-/

abbrev FPath := List String

/-- One node of a real filesystem tree.  A directory carries a `readable` flag:
`readable = false` models a directory whose listing fails with `OSError`
(permission denied or transient I/O error).  A symlink carries its raw link
target; nothing in the model ever follows it. -/
inductive Entry where
  | dir (name : String) (readable : Bool) (children : List Entry)
  | file (name : String) (size : Nat) (mtime : Nat)
  | symlink (name : String) (target : String)
deriving Repr

namespace Entry

def name : Entry → String
  | .dir n _ _ => n
  | .file n _ _ => n
  | .symlink n _ => n

/-- `entry.is_dir(follow_symlinks=False)`: a symlink is never classified as a
directory, even if its target is one (the target is not consulted at all). -/
def isDirE : Entry → Bool
  | .dir _ _ _ => true
  | .file _ _ _ => false
  | .symlink _ _ => false

/-- `os.path.islink` / `entry.is_symlink()`. -/
def isLinkE : Entry → Bool
  | .symlink _ _ => true
  | _ => false

end Entry

/-- `os.path.join(top, name)` for a single relative segment. -/
def pathJoin (top : FPath) (n : String) : FPath := top ++ [n]

mutual

def Entry.deq : (a b : Entry) → Decidable (a = b)
  | .dir n r cs, .dir m s ds =>
      if h1 : n = m then
        if h2 : r = s then
          match Entry.deqL cs ds with
          | isTrue h3 => isTrue (by rw [h1, h2, h3])
          | isFalse h3 => isFalse (by intro h; injection h; contradiction)
        else isFalse (by intro h; injection h; contradiction)
      else isFalse (by intro h; injection h; contradiction)
  | .dir _ _ _, .file _ _ _ => isFalse (fun h => Entry.noConfusion h)
  | .dir _ _ _, .symlink _ _ => isFalse (fun h => Entry.noConfusion h)
  | .file _ _ _, .dir _ _ _ => isFalse (fun h => Entry.noConfusion h)
  | .file n s t, .file m u v =>
      if h : n = m ∧ s = u ∧ t = v then
        isTrue (by rw [h.1, h.2.1, h.2.2])
      else isFalse (by intro hh; injection hh; exact h ⟨by assumption, by assumption, by assumption⟩)
  | .file _ _ _, .symlink _ _ => isFalse (fun h => Entry.noConfusion h)
  | .symlink _ _, .dir _ _ _ => isFalse (fun h => Entry.noConfusion h)
  | .symlink _ _, .file _ _ _ => isFalse (fun h => Entry.noConfusion h)
  | .symlink n t, .symlink m u =>
      if h : n = m ∧ t = u then isTrue (by rw [h.1, h.2])
      else isFalse (by intro hh; injection hh; exact h ⟨by assumption, by assumption⟩)

def Entry.deqL : (as bs : List Entry) → Decidable (as = bs)
  | [], [] => isTrue rfl
  | [], _ :: _ => isFalse (fun h => List.noConfusion h)
  | _ :: _, [] => isFalse (fun h => List.noConfusion h)
  | a :: as, b :: bs =>
      match Entry.deq a b, Entry.deqL as bs with
      | isTrue h1, isTrue h2 => isTrue (by rw [h1, h2])
      | isFalse h1, _ => isFalse (by intro h; injection h; contradiction)
      | isTrue _, isFalse h2 => isFalse (by intro h; injection h; contradiction)

end

instance : DecidableEq Entry := Entry.deq

abbrev Triple := FPath × List Entry × List Entry

/-- Observable content of a walk triple for its consumer `find.directories`:
the path and the entry names of the two listing halves. -/
def nameTriple (t : Triple) : FPath × List String × List String :=
  (t.1, t.2.1.map Entry.name, t.2.2.map Entry.name)

/- `comparator.find.walk`: simplified directory tree generator.  For each
directory in the tree rooted at `top` (including `top` itself) it yields
`(dirpath, dirnames, filenames)`; symlinks are always treated as files and
never followed.  An unreadable directory yields nothing and is not descended
into.  `walkChildren` is the trailing `for d in dirs:` loop: it runs over the
listing in order and recurses only into entries classified as directories,
re-checking `os.path.islink` on the joined path before recursing. -/
mutual

def walk (top : FPath) : Entry → List Triple
  | .dir _ true children =>
      (top, children.filter Entry.isDirE, children.filter fun x => !x.isDirE) ::
        walkChildren top children
  | _ => []

def walkChildren (top : FPath) : List Entry → List Triple
  | [] => []
  | d :: ds =>
      (if d.isDirE then
        (if (pathJoin top d.name, d).2.isLinkE then [] else walk (pathJoin top d.name) d)
       else []) ++ walkChildren top ds

end

/- Number of identifiers the hierarchy builder allocates while consuming
`walk top e`: every directory entry listed in every visited triple. -/
mutual

def dcount : Entry → Nat
  | .dir _ true children => (children.filter Entry.isDirE).length + dcountChildren children
  | _ => 0

def dcountChildren : List Entry → Nat
  | [] => 0
  | d :: ds =>
      (if d.isDirE then (if d.isLinkE then 0 else dcount d) else 0) + dcountChildren ds

end

/- Well-formedness of a modelled tree, true of any real filesystem: inside
each directory the entry names are nonempty and pairwise distinct. -/
mutual

def wfE : Entry → Bool
  | .dir _ _ children =>
      children.all (fun c => !(c.name == "")) &&
      decide ((children.map Entry.name).Nodup) &&
      wfChildren children
  | _ => true

def wfChildren : List Entry → Bool
  | [] => true
  | c :: cs => wfE c && wfChildren cs

end

/-- Row of the `filesystem` table (`comparator.db.FileSystem`). -/
structure FSRow where
  id : Nat
  name : FPath
deriving Repr, DecidableEq

/-- Row of the `directory` table (`comparator.db.Directory`).  `nfiles` has
column default 0. -/
structure DirRow where
  id : Nat
  filesystem_id : Nat
  parent_id : Nat
  nfiles : Nat
  name : String
deriving Repr, DecidableEq

/-- Row of the `file` table (`comparator.db.File`).  `link` has column default
`false` and `destination` column default `""`; the autoincrement primary key
is not modelled. -/
structure FileRow where
  directory_id : Nat
  size : Nat
  mtime : Nat
  name : String
  link : Bool
  destination : String
deriving Repr, DecidableEq

/-- Python dict lookup for the `parents` mapping (latest binding first). -/
def plookup : List (FPath × Nat) → FPath → Option Nat
  | [], _ => none
  | q :: ps, k => if q.1 = k then some q.2 else plookup ps k

/-- In-session state of one `find.directories` invocation: the `directory`
table contents, the `parents` path-to-id dict, and the running `directory_id`
counter (id of the last directory created). -/
structure ScanState where
  rows : List DirRow
  parents : List (FPath × Nat)
  lastId : Nat
deriving Repr, DecidableEq

/-- `p = Session.query(Directory).filter(Directory.id == i).one(); p.nfiles = n`:
the unique row with id `i` gets its `nfiles` set. -/
def setNfiles (rows : List DirRow) (i n : Nat) : List DirRow :=
  rows.map fun r => if r.id = i then { r with nfiles := n } else r

/-- The `for d in dirnames:` loop of `find.directories`: allocate the next id,
record the subdirectory's joined path in `parents`, and add a Directory row
whose parent is the row registered for `dirpath` (looked up per iteration, as
in the source).  `none` models a `KeyError`. -/
def addSubdirs (fsid : Nat) (dirpath : FPath) : List Entry → ScanState → Option ScanState
  | [], st => some st
  | d :: ds, st =>
      let nid := st.lastId + 1
      let ps := (pathJoin dirpath d.name, nid) :: st.parents
      (plookup ps dirpath).bind fun pid =>
        addSubdirs fsid dirpath ds ⟨st.rows ++ [⟨nid, fsid, pid, 0, d.name⟩], ps, nid⟩

/-- Body of the `for dirpath, dirnames, filenames in walk(fs.name):` loop:
look up the already-assigned id of `dirpath` (a missing key is a `KeyError`,
a `.one()` count other than 1 is an error), set its `nfiles` to the number of
non-directory entries, then insert the subdirectory rows. -/
def processTriple (fsid : Nat) (st : ScanState) (t : Triple) : Option ScanState :=
  (plookup st.parents t.1).bind fun pid =>
    if (st.rows.filter fun r => r.id == pid).length = 1 then
      addSubdirs fsid t.1 t.2.1 ⟨setNfiles st.rows pid t.2.2.length, st.parents, st.lastId⟩
    else none

def runTriples (fsid : Nat) : List Triple → ScanState → Option ScanState
  | [], st => some st
  | t :: ts, st => (processTriple fsid st t).bind (runTriples fsid ts)

/-- `find.directories(fs, directory_id)` acting on a session whose `directory`
table already holds `rows0`: seed the root Directory (id `directory_id`, empty
name, parent looked up as `parents[fs.name]`, i.e. itself), then drive the
walker from the filesystem's root path.  Returns the full final state. -/
def directoriesFull (fs : FSRow) (tree : Entry) (directory_id : Nat)
    (rows0 : List DirRow) : Option ScanState :=
  (plookup [(fs.name, directory_id)] fs.name).bind fun pid =>
    runTriples fs.id (walk fs.name tree)
      ⟨rows0 ++ [⟨directory_id, fs.id, pid, 0, ""⟩], [(fs.name, directory_id)], directory_id⟩

/-- `find.directories` proper: returns the id of the last directory found. -/
def directories (fs : FSRow) (tree : Entry) (directory_id : Nat)
    (rows0 : List DirRow) : Option Nat :=
  (directoriesFull fs tree directory_id rows0).map ScanState.lastId

/-- Lookup of a Directory row through the `parent` / `filesystem`
relationships: first row with the given primary key. -/
def getDir : List DirRow → Nat → Option DirRow
  | [], _ => none
  | r :: rs, i => if r.id = i then some r else getDir rs i

/-- The `while parent.name:` loop of `Directory.fullpath`, producing the name
segments of the ancestors of (and including) the row with id `pid`, outermost
first, stopping below the root (the row with empty name).  `fuel` bounds the
loop; exhausting it models non-termination, a missing row models the
`AttributeError` from a dangling `parent_id`. -/
def chainNames (rows : List DirRow) : Nat → Nat → Option (List String)
  | 0, _ => none
  | fuel + 1, pid =>
      (getDir rows pid).bind fun p =>
        if p.name = "" then some []
        else (chainNames rows fuel p.parent_id).map fun ns => ns ++ [p.name]

/-- `comparator.db.Directory.fullpath` with the owning filesystem's root path
given directly: the synthetic root (empty name) maps to the root path, any
other row to root path ++ ancestor names ++ own name. -/
def fullpath (rows : List DirRow) (fsname : FPath) (r : DirRow) : Option FPath :=
  if r.name = "" then some fsname
  else
    match chainNames rows (rows.length + 1) r.parent_id with
    | none => none
    | some ns => some (fsname ++ ns ++ [r.name])

/-- A machine: the set of mounted root paths and the trees below them. -/
abbrev World := List (FPath × Entry)

/-- Walk down a modelled tree along relative path segments. -/
def descend : Entry → FPath → Option Entry
  | e, [] => some e
  | .dir _ _ cs, n :: rest =>
      match cs.find? (fun c => c.name == n) with
      | some c => descend c rest
      | none => none
  | _, _ :: _ => none

def resolveRoot (r : FPath × Entry) (p : FPath) : Option Entry :=
  if r.1.isPrefixOf p then descend r.2 (p.drop r.1.length) else none

/-- Resolve an absolute path on the machine (used for `os.path.exists` and
`os.scandir`). -/
def resolveW (w : World) (p : FPath) : Option Entry :=
  match w with
  | [] => none
  | r :: rs =>
      match resolveRoot r p with
      | some e => some e
      | none => resolveW rs p

/-- The whole catalog store. -/
structure DB where
  filesystems : List FSRow
  dirRows : List DirRow
  fileRows : List FileRow
deriving Repr, DecidableEq

def emptyDB : DB := ⟨[], [], []⟩

/-- `Directory.fullpath` as called in context: resolves the owning
`FileSystem` row through the relationship first. -/
def fullpathM (db : DB) (r : DirRow) : Option FPath :=
  match db.filesystems.find? fun f => f.id == r.filesystem_id with
  | none => none
  | some fsr => fullpath db.dirRows fsr.name r

/-- One entry of the `os.scandir` listing in `find.files`: a subdirectory is
skipped; a symlink is recorded with size 0, mtime 0, link flag and its raw
`os.readlink` target; a regular file is recorded with the size and integer
mtime of its non-following stat, and the column defaults
`link=False, destination=''`. -/
def ingestEntry (did : Nat) : Entry → Option FileRow
  | .dir _ _ _ => none
  | .symlink nm t => some ⟨did, 0, 0, nm, true, t⟩
  | .file nm s m => some ⟨did, s, m, nm, false, ""⟩

/-- `find.files(directory)`: resolve the directory's full path, list it with
`os.scandir` (an unresolvable path or unreadable directory raises `OSError`,
which `files` does not catch — modelled as `none`), and add one File row per
non-directory entry. -/
def files (w : World) (db : DB) (d : DirRow) : Option (List FileRow) :=
  match fullpathM db d with
  | none => none
  | some p =>
      match resolveW w p with
      | some (.dir _ true cs) => some (cs.filterMap (ingestEntry d.id))
      | _ => none

/-- The configuration surface of `initialize.main` (CLI parsing excluded). -/
structure Opts where
  filesystem : List FPath
  release : String
  skip_files : Bool
  overwrite : Bool
deriving Repr, DecidableEq

/-- `FileSystem(name=os.path.join(root, options.release))` for each configured
root, with SQLite autoincrement ids 1, 2, … on the empty table. -/
def mkFileSystems (roots : List FPath) (rel : String) : List FSRow :=
  ((List.range roots.length).zip roots).map fun x => ⟨x.1 + 1, x.2 ++ [rel]⟩

/-- The "Add filesystems" block of `initialize.main`:
`Session.query(FileSystem).one()` with only `NoResultFound` caught — zero rows
means create them all, one row passes, more than one row raises
`MultipleResultsFound`, which propagates. -/
def fsPhase (o : Opts) (db : DB) : DB × Option String :=
  match db.filesystems with
  | [] => ({ db with filesystems := mkFileSystems o.filesystem o.release }, none)
  | [_] => (db, none)
  | _ :: _ :: _ => (db, some "MultipleResultsFound")

/-- The "Scan Directories" loop of `initialize.main`: for each FileSystem row
whose root path exists, branch on the number of its Directory rows — zero
invokes `directories(fs, last_id+1)`, exactly one records that row's id as the
running baseline, more than one takes the maximum Directory id across the
whole catalog. -/
def dirScanLoop (w : World) (db : DB) (last : Nat) :
    List FSRow → (DB × Nat) × Option String
  | [] => ((db, last), none)
  | fs :: rest =>
      match resolveW w fs.name with
      | none => dirScanLoop w db last rest
      | some tree =>
          match db.dirRows.filter fun r => r.filesystem_id == fs.id with
          | [] =>
              match directoriesFull fs tree (last + 1) db.dirRows with
              | none => ((db, last), some "KeyError")
              | some st => dirScanLoop w { db with dirRows := st.rows } st.lastId rest
          | [r] => dirScanLoop w db r.id rest
          | _ :: _ :: _ =>
              dirScanLoop w db ((db.dirRows.map fun r => r.id).foldl Nat.max 0) rest

/-- Count of `Session.query(File).join(Directory).filter(
Directory.filesystem_id == fs.id)` results. -/
def fsFileCount (db : DB) (fsid : Nat) : Nat :=
  (db.fileRows.filter fun f =>
    db.dirRows.any fun d => d.id == f.directory_id && d.filesystem_id == fsid).length

/-- The `for d in …: files(d)` loop, committing after each directory; an
`OSError` inside `files` aborts the run, keeping rows committed so far. -/
def ingestLoop (w : World) (db : DB) : List DirRow → DB × Option String
  | [] => (db, none)
  | d :: ds =>
      match files w db d with
      | none => (db, some "OSError")
      | some rs => ingestLoop w { db with fileRows := db.fileRows ++ rs } ds

/-- The "Scan files" loop of `initialize.main`: per filesystem with an
existing root, zero File rows means ingest every Directory with `nfiles > 0`;
one row or many rows both pass. -/
def fileScanLoop (w : World) (db : DB) : List FSRow → DB × Option String
  | [] => (db, none)
  | fs :: rest =>
      match resolveW w fs.name with
      | none => fileScanLoop w db rest
      | some _ =>
          if fsFileCount db fs.id = 0 then
            match ingestLoop w db
                (db.dirRows.filter fun d => d.filesystem_id == fs.id && decide (0 < d.nfiles)) with
            | (db2, some e) => (db2, some e)
            | (db2, none) => fileScanLoop w db2 rest
          else fileScanLoop w db rest

/-- `initialize.main` on a machine `w` with an existing database `db0`
(named `mainScan` because Lean reserves `main`):
overwrite resets the store, then the three phases run in order, an uncaught
exception stopping the run while keeping committed state. -/
def mainScan (o : Opts) (w : World) (db0 : DB) : DB × Option String :=
  let db := if o.overwrite then emptyDB else db0
  match fsPhase o db with
  | (db1, some e) => (db1, some e)
  | (db1, none) =>
      match dirScanLoop w db1 0 db1.filesystems with
      | ((db2, _), some e) => (db2, some e)
      | ((db2, _), none) =>
          if o.skip_files then (db2, none)
          else fileScanLoop w db2 db2.filesystems

/-!
## Concrete fixtures (the spec's own worked scenario: a root containing a
subdirectory `a` with a 10-byte file `x.txt`, and a symlink `link` to
`/elsewhere`)
-/

def tree1 : Entry :=
  .dir "" true [.dir "a" true [.file "x.txt" 10 100], .symlink "link" "/elsewhere"]

def fs1 : FSRow := ⟨1, ["data", "rel"]⟩

def w1 : World := [(["data", "rel"], tree1)]

def opts1 : Opts := ⟨[["data"]], "rel", false, false⟩

/-- The catalog as it stands right after the directory-scan phase of a first
run of `mainScan opts1 w1 emptyDB`. -/
def dbScanned : DB :=
  ⟨[⟨1, ["data", "rel"]⟩],
   [⟨1, 1, 1, 1, ""⟩, ⟨2, 1, 1, 1, "a"⟩],
   []⟩

/-- The scan state produced by `directoriesFull fs1 tree1 1 []`. -/
def stScan : ScanState :=
  ⟨[⟨1, 1, 1, 1, ""⟩, ⟨2, 1, 1, 1, "a"⟩],
   [(["data", "rel", "a"], 2), (["data", "rel"], 1)], 2⟩

/-- The catalog after a complete first run of `mainScan opts1 w1 emptyDB`. -/
def dbFull : DB :=
  ⟨[⟨1, ["data", "rel"]⟩],
   [⟨1, 1, 1, 1, ""⟩, ⟨2, 1, 1, 1, "a"⟩],
   [⟨1, 0, 0, "link", true, "/elsewhere"⟩, ⟨2, 10, 100, "x.txt", false, ""⟩]⟩

/-- `k` lies strictly below `top` in the path hierarchy. -/
def strictBelow (top k : FPath) : Prop := ∃ rest, rest ≠ [] ∧ k = top ++ rest

/-- Key fields of a Directory row (everything except the mutable `nfiles`). -/
def SameKey (r r' : DirRow) : Prop :=
  r'.id = r.id ∧ r'.parent_id = r.parent_id ∧ r'.name = r.name ∧
  r'.filesystem_id = r.filesystem_id

/-- Correctness of one `parents` entry with respect to the Path Resolver: the
recorded key is exactly what `Directory.fullpath` reconstructs for the row. -/
def PathOk (rows : List DirRow) (fsname : FPath) (r : DirRow) (k : FPath) : Prop :=
  (r.name = "" → k = fsname) ∧
  (r.name ≠ "" → ∃ ns, chainNames rows (rows.length + 1) r.parent_id = some ns ∧
    k = fsname ++ ns ++ [r.name])

/-- Invariant threaded through the hierarchy builder's scan state. -/
structure ScanInv (fsid : Nat) (fsname : FPath) (st : ScanState) : Prop where
  idsNodup : (st.rows.map DirRow.id).Nodup
  idLe : ∀ r ∈ st.rows, r.id ≤ st.lastId
  pOk : ∀ pr ∈ st.parents, ∃ r ∈ st.rows, r.id = pr.2 ∧ PathOk st.rows fsname r pr.1
  keysNodup : (st.parents.map Prod.fst).Nodup
  valsNodup : (st.parents.map Prod.snd).Nodup
  reg : ∀ r ∈ st.rows, ∃ k, (k, r.id) ∈ st.parents
  parentLink : ∀ r ∈ st.rows,
    (r.name = "" ∧ r.parent_id = r.id) ∨
    (∃ pk, (pk, r.parent_id) ∈ st.parents ∧ (pk ++ [r.name], r.id) ∈ st.parents)
  parentLt : ∀ r ∈ st.rows, r.name = "" ∨ r.parent_id < r.id
  fsConst : ∀ r ∈ st.rows, r.filesystem_id = fsid

/-- The Directory rows inserted by one pass of the `for d in dirnames:` loop
(ids `base+1`, `base+2`, …, parent `pid`). -/
def subdirRows (fsid pid : Nat) (base : Nat) : List Entry → List DirRow
  | [] => []
  | d :: ds => ⟨base + 1, fsid, pid, 0, d.name⟩ :: subdirRows fsid pid (base + 1) ds

/-- The `parents` entries added by one pass of the loop (most recent first, as
the dict model prepends). -/
def subdirParents (dirpath : FPath) (base : Nat) : List Entry → List (FPath × Nat)
  | [] => []
  | d :: ds => subdirParents dirpath (base + 1) ds ++ [(pathJoin dirpath d.name, base + 1)]

/-- Conclusion bundle of the scan-loop correctness induction: processing the
triples `ts` (all situated at or below `top`) from state `st` yields `st'`
with `dc` new sequential ids, parent entries extended only below `top`, the
invariant preserved, every processed triple's row carrying its non-directory
count as `nfiles`, every row accounted for (visited, pre-existing, or fresh
with `nfiles = 0`), and rows registered outside the excluded key region
untouched. -/
def MasterOut (fsid : Nat) (fsname top : FPath) (excl : FPath → Prop)
    (ts : List Triple) (dc : Nat) (st st' : ScanState) : Prop :=
  st'.lastId = st.lastId + dc ∧
  st'.rows.map DirRow.id = st.rows.map DirRow.id ++ List.range' (st.lastId + 1) dc ∧
  (∃ ps, st'.parents = ps ++ st.parents ∧
    ∀ pr ∈ ps, strictBelow top pr.1 ∧ st.lastId < pr.2) ∧
  ScanInv fsid fsname st' ∧
  (∀ tr ∈ ts, ∃ r ∈ st'.rows, (tr.1, r.id) ∈ st'.parents ∧ r.nfiles = tr.2.2.length) ∧
  (∀ r ∈ st'.rows,
    (∃ tr ∈ ts, (tr.1, r.id) ∈ st'.parents ∧ r.nfiles = tr.2.2.length) ∨
    r ∈ st.rows ∨ (st.lastId < r.id ∧ r.nfiles = 0)) ∧
  (∀ r0 ∈ st.rows,
    (∀ pr ∈ st.parents, pr.2 = r0.id → ¬ excl pr.1) → r0 ∈ st'.rows) ∧
  (∀ tr ∈ ts, tr.1 = top ∨ strictBelow top tr.1) ∧
  (∃ old new, st'.rows = old ++ new ∧ List.Forall₂ SameKey st.rows old ∧
    ∀ r ∈ new, st.lastId < r.id)

/-- Key region excluded (possibly rewritten) while scanning the node at `p`:
`p` itself and everything below it. -/
def exclAt (p : FPath) (k : FPath) : Prop := k = p ∨ strictBelow p k

/-- Key region excluded while running the recursion loop over the children
`ds` listed at `top`: the subtree of each directory child. -/
def exclChildren (top : FPath) (ds : List Entry) (k : FPath) : Prop :=
  ∃ d ∈ ds, d.isDirE = true ∧ exclAt (pathJoin top d.name) k

/-- The File rows one pass of the file-scan loop would add: the listing of
each directory in order (`files` never reads the `file` table, so the
accumulating state is irrelevant to each step's outcome). -/
def ingestDelta (w : World) (db : DB) (ds : List DirRow) : List FileRow :=
  ds.flatMap fun d => (files w db d).getD []

/-- A catalog holding exactly one Directory row for its one FileSystem — the
ambiguous resume state of the Resume Controller's 0/1/many test. -/
def dbOneRow : DB := ⟨[fs1], [⟨5, 1, 5, 0, ""⟩], []⟩

def w2 : World := [(["data", "rel"], tree1), (["backup", "rel"], tree1)]

def opts2 : Opts := ⟨[["data"], ["backup"]], "rel", false, false⟩

/-- The catalog after a complete first run of `mainScan opts2 w2 emptyDB`
(two configured roots). -/
def dbTwoFS : DB :=
  ⟨[⟨1, ["data", "rel"]⟩, ⟨2, ["backup", "rel"]⟩],
   [⟨1, 1, 1, 1, ""⟩, ⟨2, 1, 1, 1, "a"⟩, ⟨3, 2, 3, 1, ""⟩, ⟨4, 2, 3, 1, "a"⟩],
   [⟨1, 0, 0, "link", true, "/elsewhere"⟩, ⟨2, 10, 100, "x.txt", false, ""⟩,
    ⟨3, 0, 0, "link", true, "/elsewhere"⟩, ⟨4, 10, 100, "x.txt", false, ""⟩]⟩

/-!
## Theorems
-/

/-!
## Basic facts about the walker
-/

theorem isLinkE_false_of_isDirE {d : Entry} (h : d.isDirE = true) : d.isLinkE = false := by
  cases d <;> simp_all [Entry.isDirE, Entry.isLinkE]

theorem walk_readable (top : FPath) (nm : String) (cs : List Entry) :
    walk top (.dir nm true cs) =
      (top, cs.filter Entry.isDirE, cs.filter fun x => !x.isDirE) :: walkChildren top cs := by
  rw [walk]

theorem walk_not_readable_dir (top : FPath) (e : Entry)
    (h : ∀ nm cs, e ≠ .dir nm true cs) : walk top e = [] := by
  rw [walk]
  intro nm cs heq
  exact h nm cs heq

theorem walk_unreadable_dir (top : FPath) (nm : String) (cs : List Entry) :
    walk top (.dir nm false cs) = [] :=
  walk_not_readable_dir top _ (by intro n c h; injection h; simp_all)

theorem walkChildren_nil (top : FPath) : walkChildren top [] = [] := by
  rw [walkChildren]

theorem walkChildren_cons (top : FPath) (d : Entry) (ds : List Entry) :
    walkChildren top (d :: ds) =
      (if d.isDirE then
        (if (pathJoin top d.name, d).2.isLinkE then [] else walk (pathJoin top d.name) d)
       else []) ++ walkChildren top ds := by
  rw [walkChildren]

/-- The recursion loop of `walk` never skips a directory-classified entry: the
`os.path.islink` re-check is redundant on a static tree because the
non-following classification already excluded symlinks. -/
theorem walkChildren_eq_flatMap (top : FPath) (ds : List Entry) :
    walkChildren top ds =
      (ds.filter Entry.isDirE).flatMap fun d => walk (pathJoin top d.name) d := by
  induction ds with
  | nil => simp [walkChildren_nil]
  | cons d ds ih =>
      rw [walkChildren_cons, ih]
      by_cases h : d.isDirE = true
      · simp [h, isLinkE_false_of_isDirE h]
      · simp [h]

theorem entry_sizeOf_lt {d : Entry} {cs : List Entry} (hd : d ∈ cs)
    (nm : String) (b : Bool) : sizeOf d < sizeOf (Entry.dir nm b cs) := by
  have h := List.sizeOf_lt_of_mem hd
  simp only [Entry.dir.sizeOf_spec]
  omega

theorem walkChildren_mem {top : FPath} {ds : List Entry} {tr : Triple}
    (h : tr ∈ walkChildren top ds) :
    ∃ d ∈ ds, d.isDirE = true ∧ tr ∈ walk (pathJoin top d.name) d := by
  induction ds with
  | nil => simp [walkChildren_nil] at h
  | cons d ds ih =>
      rw [walkChildren_cons] at h
      rcases List.mem_append.1 h with h1 | h2
      · by_cases hd : d.isDirE = true
        · refine ⟨d, List.mem_cons_self .., hd, ?_⟩
          simpa [hd, isLinkE_false_of_isDirE hd] using h1
        · simp [hd] at h1
      · obtain ⟨d', hd', hdir, htr⟩ := ih h2
        exact ⟨d', List.mem_cons_of_mem _ hd', hdir, htr⟩

/-- Every triple yielded by `walk` splits one real listing into its
directory-classified and non-directory-classified halves. -/
theorem walk_mem_shape : ∀ (N : Nat) (e : Entry) (top : FPath) (tr : Triple),
    sizeOf e ≤ N → tr ∈ walk top e →
    ∃ (p : FPath) (cs : List Entry),
      tr = (p, cs.filter Entry.isDirE, cs.filter fun x => !x.isDirE) := by
  intro N
  induction N with
  | zero =>
      intro e top tr hsz
      have : 0 < sizeOf e := by cases e <;> simp_arith
      omega
  | succ n ih =>
      intro e top tr hsz htr
      match e with
      | .dir nm true cs =>
          rw [walk_readable] at htr
          rcases List.mem_cons.1 htr with h1 | h2
          · exact ⟨top, cs, h1⟩
          · obtain ⟨d, hd, _, htr'⟩ := walkChildren_mem h2
            have hlt : sizeOf d < sizeOf (Entry.dir nm true cs) := entry_sizeOf_lt hd nm true
            exact ih d (pathJoin top d.name) tr (by omega) htr'
      | .dir nm false cs => rw [walk_unreadable_dir] at htr; simp at htr
      | .file nm s m =>
          rw [walk_not_readable_dir top _ (by intro a b h; exact Entry.noConfusion h)] at htr
          simp at htr
      | .symlink nm t =>
          rw [walk_not_readable_dir top _ (by intro a b h; exact Entry.noConfusion h)] at htr
          simp at htr

/-- C8: every entry is classified by a non-following check, so a symlink (even
one whose target is a directory) is never in the subdirectory half of a yield
and is never descended into; recursion runs exactly over the
directory-classified entries, the islink re-check before recursion never
firing on a static tree. -/
theorem c8_walk_symlink_policy (top : FPath) (e : Entry) :
    (∀ n t, Entry.isDirE (Entry.symlink n t) = false) ∧
    (∀ tr ∈ walk top e,
      (∀ x ∈ tr.2.1, x.isDirE = true ∧ x.isLinkE = false) ∧
      (∀ x ∈ tr.2.2, x.isDirE = false)) ∧
    (∀ nm cs, walk top (Entry.dir nm true cs) =
      (top, cs.filter Entry.isDirE, cs.filter fun x => !x.isDirE) ::
        (cs.filter Entry.isDirE).flatMap fun d => walk (pathJoin top d.name) d) := by
  refine ⟨fun n t => rfl, ?_, ?_⟩
  · intro tr htr
    obtain ⟨p, cs, rfl⟩ := walk_mem_shape (sizeOf e) e top tr le_rfl htr
    constructor
    · intro x hx
      have hdir := List.of_mem_filter hx
      exact ⟨hdir, isLinkE_false_of_isDirE hdir⟩
    · intro x hx
      have := List.of_mem_filter hx
      simpa using this
  · intro nm cs
    rw [walk_readable, walkChildren_eq_flatMap]

theorem c8_witness :
    (∀ n t, Entry.isDirE (Entry.symlink n t) = false) ∧
    (∀ tr ∈ walk ["data", "rel"]
        (.dir "" true [.dir "a" true [.file "x.txt" 10 100], .symlink "link" "/elsewhere"]),
      (∀ x ∈ tr.2.1, x.isDirE = true ∧ x.isLinkE = false) ∧
      (∀ x ∈ tr.2.2, x.isDirE = false)) ∧
    (∀ nm cs, walk ["data", "rel"] (Entry.dir nm true cs) =
      (["data", "rel"], cs.filter Entry.isDirE, cs.filter fun x => !x.isDirE) ::
        (cs.filter Entry.isDirE).flatMap fun d => walk (pathJoin ["data", "rel"] d.name) d) :=
  c8_walk_symlink_policy ["data", "rel"]
    (.dir "" true [.dir "a" true [.file "x.txt" 10 100], .symlink "link" "/elsewhere"])

/-- C9: an unreadable directory yields no listing of its own (its subtree
contributes nothing to the traversal), and relative to the rest of the
traversal it behaves exactly like a directory with zero children — siblings
before and after it are traversed identically. -/
theorem c9_unreadable_skipped (top : FPath) (nm u : String)
    (ucs pre post : List Entry) :
    walk top (Entry.dir u false ucs) = [] ∧
    (walk top (Entry.dir nm true (pre ++ Entry.dir u false ucs :: post))).map nameTriple =
      (walk top (Entry.dir nm true (pre ++ Entry.dir u false [] :: post))).map nameTriple := by
  refine ⟨walk_unreadable_dir top u ucs, ?_⟩
  rw [walk_readable, walk_readable, walkChildren_eq_flatMap, walkChildren_eq_flatMap]
  simp only [List.filter_append, List.filter_cons, List.flatMap_append, List.map_cons,
    List.map_append, Entry.isDirE, Bool.not_true, List.flatMap_cons]
  simp [walk_unreadable_dir, nameTriple, Entry.name]

/-!
## The file ingester
-/

theorem files_some {w : World} {db : DB} {d : DirRow} {rows : List FileRow}
    (h : files w db d = some rows) :
    ∃ (p : FPath) (nm : String) (cs : List Entry),
      fullpathM db d = some p ∧ resolveW w p = some (.dir nm true cs) ∧
      rows = cs.filterMap (ingestEntry d.id) := by
  rcases hp : fullpathM db d with _ | p
  · simp [files, hp] at h
  · rcases he : resolveW w p with _ | e
    · simp [files, hp, he] at h
    · match e, he with
      | .dir nm true cs, he =>
          refine ⟨p, nm, cs, rfl, he, ?_⟩
          simp [files, hp, he] at h
          exact h.symm
      | .dir nm false cs, he => simp [files, hp, he] at h
      | .file nm s m, he => simp [files, hp, he] at h
      | .symlink nm t, he => simp [files, hp, he] at h

/-- C4: every File row created by `files` for a symlink entry carries size 0,
link flag true and the raw unresolved target as destination; every row for a
regular file carries link flag false and an empty destination — and every
non-directory entry of the listing produces its corresponding row. -/
theorem c4_symlink_fidelity (w : World) (db : DB) (d : DirRow) (rows : List FileRow)
    (h : files w db d = some rows) :
    ∃ (p : FPath) (nm : String) (cs : List Entry),
      fullpathM db d = some p ∧ resolveW w p = some (.dir nm true cs) ∧
      (∀ f ∈ rows, f.directory_id = d.id ∧
        ((f.link = true ∧ f.size = 0 ∧ Entry.symlink f.name f.destination ∈ cs) ∨
         (f.link = false ∧ f.destination = "" ∧ Entry.file f.name f.size f.mtime ∈ cs))) ∧
      (∀ n t, Entry.symlink n t ∈ cs → (⟨d.id, 0, 0, n, true, t⟩ : FileRow) ∈ rows) ∧
      (∀ n s m, Entry.file n s m ∈ cs → (⟨d.id, s, m, n, false, ""⟩ : FileRow) ∈ rows) := by
  obtain ⟨p, nm, cs, hp, he, hrows⟩ := files_some h
  subst hrows
  refine ⟨p, nm, cs, hp, he, ?_, ?_, ?_⟩
  · intro f hf
    obtain ⟨e, he', hing⟩ := List.mem_filterMap.1 hf
    match e with
    | .dir _ _ _ => simp [ingestEntry] at hing
    | .symlink n t =>
        simp only [ingestEntry, Option.some_inj] at hing
        subst hing
        exact ⟨rfl, Or.inl ⟨rfl, rfl, he'⟩⟩
    | .file n s m =>
        simp only [ingestEntry, Option.some_inj] at hing
        subst hing
        exact ⟨rfl, Or.inr ⟨rfl, rfl, he'⟩⟩
  · intro n t hmem
    exact List.mem_filterMap.2 ⟨.symlink n t, hmem, rfl⟩
  · intro n s m hmem
    exact List.mem_filterMap.2 ⟨.file n s m, hmem, rfl⟩

/-- C10: symlink rows always carry `mtime = 0` and `size = 0` (the link's own
mtime is never stored), while regular-file rows carry the integer mtime and
size of the entry's non-following stat. -/
theorem c10_mtime_policy (w : World) (db : DB) (d : DirRow) (rows : List FileRow)
    (h : files w db d = some rows) :
    ∃ (p : FPath) (nm : String) (cs : List Entry),
      fullpathM db d = some p ∧ resolveW w p = some (.dir nm true cs) ∧
      ∀ f ∈ rows,
        (f.link = true → f.mtime = 0 ∧ f.size = 0) ∧
        (f.link = false → Entry.file f.name f.size f.mtime ∈ cs) := by
  obtain ⟨p, nm, cs, hp, he, hrows⟩ := files_some h
  subst hrows
  refine ⟨p, nm, cs, hp, he, ?_⟩
  intro f hf
  obtain ⟨e, he', hing⟩ := List.mem_filterMap.1 hf
  match e with
  | .dir _ _ _ => simp [ingestEntry] at hing
  | .symlink n t =>
      simp only [ingestEntry, Option.some_inj] at hing
      subst hing
      exact ⟨fun _ => ⟨rfl, rfl⟩, fun hl => by simp at hl⟩
  | .file n s m =>
      simp only [ingestEntry, Option.some_inj] at hing
      subst hing
      exact ⟨fun hl => by simp at hl, fun _ => he'⟩

theorem c4_witness :
    files w1 dbScanned ⟨2, 1, 1, 1, "a"⟩ = some [⟨2, 10, 100, "x.txt", false, ""⟩] ∧
    (∃ (p : FPath) (nm : String) (cs : List Entry),
      fullpathM dbScanned ⟨2, 1, 1, 1, "a"⟩ = some p ∧
      resolveW w1 p = some (.dir nm true cs) ∧
      (∀ f ∈ [(⟨2, 10, 100, "x.txt", false, ""⟩ : FileRow)], f.directory_id = (2 : Nat) ∧
        ((f.link = true ∧ f.size = 0 ∧ Entry.symlink f.name f.destination ∈ cs) ∨
         (f.link = false ∧ f.destination = "" ∧ Entry.file f.name f.size f.mtime ∈ cs))) ∧
      (∀ n t, Entry.symlink n t ∈ cs →
        (⟨2, 0, 0, n, true, t⟩ : FileRow) ∈ [(⟨2, 10, 100, "x.txt", false, ""⟩ : FileRow)]) ∧
      (∀ n s m, Entry.file n s m ∈ cs →
        (⟨2, s, m, n, false, ""⟩ : FileRow) ∈ [(⟨2, 10, 100, "x.txt", false, ""⟩ : FileRow)])) :=
  ⟨by decide, c4_symlink_fidelity w1 dbScanned ⟨2, 1, 1, 1, "a"⟩
    [⟨2, 10, 100, "x.txt", false, ""⟩] (by decide)⟩

theorem c10_witness :
    files w1 dbScanned ⟨1, 1, 1, 1, ""⟩ = some [⟨1, 0, 0, "link", true, "/elsewhere"⟩] ∧
    (∃ (p : FPath) (nm : String) (cs : List Entry),
      fullpathM dbScanned ⟨1, 1, 1, 1, ""⟩ = some p ∧
      resolveW w1 p = some (.dir nm true cs) ∧
      ∀ f ∈ [(⟨1, 0, 0, "link", true, "/elsewhere"⟩ : FileRow)],
        (f.link = true → f.mtime = 0 ∧ f.size = 0) ∧
        (f.link = false → Entry.file f.name f.size f.mtime ∈ cs)) :=
  ⟨by decide, c10_mtime_policy w1 dbScanned ⟨1, 1, 1, 1, ""⟩
    [⟨1, 0, 0, "link", true, "/elsewhere"⟩] (by decide)⟩

/-!
## Dictionary and row-store support lemmas
-/

theorem plookup_mem {ps : List (FPath × Nat)} {k : FPath} {v : Nat}
    (h : plookup ps k = some v) : (k, v) ∈ ps := by
  induction ps with
  | nil => simp [plookup] at h
  | cons q ps ih =>
      rw [plookup] at h
      by_cases hq : q.1 = k
      · simp only [hq, if_pos rfl, Option.some_inj] at h
        cases q
        simp_all
      · rw [if_neg hq] at h
        exact List.mem_cons_of_mem _ (ih h)

theorem plookup_eq_of_mem_nodup {ps : List (FPath × Nat)} {k : FPath} {v : Nat}
    (hmem : (k, v) ∈ ps) (hnd : (ps.map Prod.fst).Nodup) : plookup ps k = some v := by
  induction ps with
  | nil => simp at hmem
  | cons q ps ih =>
      rw [plookup]
      rcases List.mem_cons.1 hmem with h1 | h2
      · rw [← h1]
        simp
      · have hq : q.1 ≠ k := by
          intro hk
          have : k ∈ ps.map Prod.fst := List.mem_map.2 ⟨(k, v), h2, rfl⟩
          rw [List.map_cons, List.nodup_cons] at hnd
          exact hnd.1 (hk ▸ this)
        rw [if_neg hq]
        exact ih h2 (List.nodup_cons.1 (by simpa using hnd)).2

theorem plookup_append_not_mem {ps qs : List (FPath × Nat)} {k : FPath}
    (h : k ∉ ps.map Prod.fst) : plookup (ps ++ qs) k = plookup qs k := by
  induction ps with
  | nil => rfl
  | cons q ps ih =>
      rw [List.cons_append, plookup]
      have hq : q.1 ≠ k := by
        intro hk
        exact h (by simp [← hk])
      rw [if_neg hq]
      exact ih fun hm => h (List.mem_cons_of_mem _ hm)

theorem setNfiles_map_id (rows : List DirRow) (i n : Nat) :
    (setNfiles rows i n).map DirRow.id = rows.map DirRow.id := by
  induction rows with
  | nil => rfl
  | cons r rows ih =>
      simp only [setNfiles, List.map_cons] at *
      by_cases h : r.id = i <;> simp [h, ih]

theorem setNfiles_length (rows : List DirRow) (i n : Nat) :
    (setNfiles rows i n).length = rows.length := by
  simp [setNfiles]

theorem mem_setNfiles_of_mem {rows : List DirRow} {r : DirRow} (h : r ∈ rows) (i n : Nat) :
    (if r.id = i then { r with nfiles := n } else r) ∈ setNfiles rows i n :=
  List.mem_map.2 ⟨r, h, rfl⟩

theorem mem_setNfiles_of_mem_ne {rows : List DirRow} {r : DirRow} (h : r ∈ rows)
    {i : Nat} (hne : r.id ≠ i) (n : Nat) : r ∈ setNfiles rows i n := by
  have := mem_setNfiles_of_mem h i n
  rwa [if_neg hne] at this

theorem mem_of_mem_setNfiles {rows : List DirRow} {i n : Nat} {r' : DirRow}
    (h : r' ∈ setNfiles rows i n) :
    ∃ r ∈ rows, r' = if r.id = i then { r with nfiles := n } else r := by
  obtain ⟨r, hr, hval⟩ := List.mem_map.1 h
  exact ⟨r, hr, hval.symm⟩

theorem sameKey_setNfiles {rows : List DirRow} {r : DirRow} (h : r ∈ rows) (i n : Nat) :
    ∃ r' ∈ setNfiles rows i n, SameKey r r' := by
  refine ⟨_, mem_setNfiles_of_mem h i n, ?_⟩
  by_cases hid : r.id = i <;> simp [hid, SameKey]

theorem getDir_append_left {rows : List DirRow} {i : Nat} {r : DirRow}
    (h : getDir rows i = some r) (ex : List DirRow) : getDir (rows ++ ex) i = some r := by
  induction rows with
  | nil => simp [getDir] at h
  | cons a rows ih =>
      rw [List.cons_append, getDir]
      rw [getDir] at h
      by_cases ha : a.id = i
      · rwa [if_pos ha] at h ⊢
      · rw [if_neg ha] at h ⊢
        exact ih h

theorem getDir_mem {rows : List DirRow} {i : Nat} {r : DirRow}
    (h : getDir rows i = some r) : r ∈ rows ∧ r.id = i := by
  induction rows with
  | nil => simp [getDir] at h
  | cons a rows ih =>
      rw [getDir] at h
      by_cases ha : a.id = i
      · rw [if_pos ha, Option.some_inj] at h
        subst h
        exact ⟨List.mem_cons_self .., ha⟩
      · rw [if_neg ha] at h
        obtain ⟨hm, hi⟩ := ih h
        exact ⟨List.mem_cons_of_mem _ hm, hi⟩

theorem getDir_eq_of_mem_nodup {rows : List DirRow} {r : DirRow}
    (h : r ∈ rows) (hnd : (rows.map DirRow.id).Nodup) : getDir rows r.id = some r := by
  induction rows with
  | nil => simp at h
  | cons a rows ih =>
      rw [getDir]
      rcases List.mem_cons.1 h with h1 | h2
      · subst h1
        rw [if_pos rfl]
      · rw [List.map_cons, List.nodup_cons] at hnd
        have ha : a.id ≠ r.id := fun hk => hnd.1 (hk ▸ List.mem_map.2 ⟨r, h2, rfl⟩)
        rw [if_neg ha]
        exact ih h2 hnd.2

theorem getDir_setNfiles (rows : List DirRow) (i n j : Nat) :
    getDir (setNfiles rows i n) j =
      (getDir rows j).map fun r => if r.id = i then { r with nfiles := n } else r := by
  induction rows with
  | nil => rfl
  | cons a rows ih =>
      simp only [setNfiles, List.map_cons] at ih ⊢
      rw [getDir, getDir]
      by_cases hai : a.id = i <;> by_cases ha : a.id = j
      · have hij : i = j := by omega
        subst hij
        simp [hai, ih]
      · have hij : i ≠ j := by omega
        simp [hai, ha, hij, ih]
      · have hij : j ≠ i := by omega
        simp [hai, ha, hij, ih]
      · simp [hai, ha, ih]

theorem chainNames_mono {rows : List DirRow} :
    ∀ {f g i : Nat} {ns : List String}, chainNames rows f i = some ns → f ≤ g →
    chainNames rows g i = some ns := by
  intro f
  induction f with
  | zero => intro g i ns h; simp [chainNames] at h
  | succ f ih =>
      intro g i ns h hfg
      match g, hfg with
      | g + 1, hfg =>
          rw [chainNames] at h ⊢
          rcases hgd : getDir rows i with _ | p <;> rw [hgd] at h
          · simp at h
          · simp only [Option.some_bind] at h ⊢
            by_cases hp : p.name = ""
            · simpa [hp] using h
            · rw [if_neg hp] at h ⊢
              rcases hc : chainNames rows f p.parent_id with _ | ns' <;> rw [hc] at h
              · simp at h
              · rw [ih hc (by omega)]
                exact h

theorem chainNames_append {rows ex : List DirRow} :
    ∀ {f i : Nat} {ns : List String}, chainNames rows f i = some ns →
    chainNames (rows ++ ex) f i = some ns := by
  intro f
  induction f with
  | zero => intro i ns h; simp [chainNames] at h
  | succ f ih =>
      intro i ns h
      rw [chainNames] at h ⊢
      rcases hgd : getDir rows i with _ | p <;> rw [hgd] at h
      · simp at h
      · rw [getDir_append_left hgd ex]
        simp only [Option.some_bind] at h ⊢
        by_cases hp : p.name = ""
        · simpa [hp] using h
        · rw [if_neg hp] at h ⊢
          rcases hc : chainNames rows f p.parent_id with _ | ns' <;> rw [hc] at h
          · simp at h
          · rw [ih hc]
            exact h

theorem chainNames_setNfiles (rows : List DirRow) (i n : Nat) :
    ∀ (f j : Nat), chainNames (setNfiles rows i n) f j = chainNames rows f j := by
  intro f
  induction f with
  | zero => intro j; rfl
  | succ f ih =>
      intro j
      rw [chainNames, chainNames, getDir_setNfiles]
      rcases hgd : getDir rows j with _ | p
      · rfl
      · simp only [Option.map_some, Option.some_bind]
        by_cases hpi : p.id = i <;> by_cases hp : p.name = "" <;>
          simp [hpi, hp, ih]

theorem pathOk_of_sameKey {rows : List DirRow} {fsname : FPath} {r r' : DirRow} {k : FPath}
    (hsk : SameKey r r') (h : PathOk rows fsname r k) : PathOk rows fsname r' k := by
  obtain ⟨hid, hpar, hnm, hfs⟩ := hsk
  exact ⟨fun hn => h.1 (hnm ▸ hn), fun hn => by
    obtain ⟨ns, hc, hk⟩ := h.2 (hnm ▸ hn)
    exact ⟨ns, hpar ▸ hc, hnm ▸ hk⟩⟩

theorem pathOk_setNfiles_append {rows : List DirRow} {fsname : FPath} {r : DirRow} {k : FPath}
    (h : PathOk rows fsname r k) (i n : Nat) (ex : List DirRow) :
    PathOk (setNfiles rows i n ++ ex) fsname r k := by
  refine ⟨h.1, fun hn => ?_⟩
  obtain ⟨ns, hc, hk⟩ := h.2 hn
  refine ⟨ns, ?_, hk⟩
  have h1 : chainNames (setNfiles rows i n) (rows.length + 1) r.parent_id = some ns := by
    rw [chainNames_setNfiles]
    exact hc
  have h2 := @chainNames_append _ ex _ _ _ h1
  refine chainNames_mono h2 ?_
  simp [setNfiles_length]

/-- The `.one()` query in the scan loop: with distinct ids and a registered
row present, the filter returns exactly one row. -/
theorem filter_id_length_one {rows : List DirRow} {r : DirRow} {pid : Nat}
    (h : r ∈ rows) (hid : r.id = pid) (hnd : (rows.map DirRow.id).Nodup) :
    (rows.filter fun x => x.id == pid).length = 1 := by
  induction rows with
  | nil => simp at h
  | cons a rows ih =>
      rw [List.map_cons, List.nodup_cons] at hnd
      rcases List.mem_cons.1 h with h1 | h2
      · subst h1
        rw [List.filter_cons_of_pos (by simp [hid])]
        have : rows.filter (fun x => x.id == pid) = [] := by
          refine List.filter_eq_nil_iff.2 fun x hx => ?_
          simp only [beq_iff_eq]
          intro hk
          exact hnd.1 (hid ▸ hk ▸ List.mem_map.2 ⟨x, hx, rfl⟩)
        rw [this]
        rfl
      · have ha : a.id ≠ pid := by
          intro hk
          exact hnd.1 (hk ▸ hid ▸ List.mem_map.2 ⟨r, h2, rfl⟩)
        rw [List.filter_cons_of_neg (by simp [ha])]
        exact ih h2 hnd.2

/-!
## The subdirectory insertion loop
-/

theorem subdirRows_map_id (fsid pid : Nat) :
    ∀ (ds : List Entry) (base : Nat),
    (subdirRows fsid pid base ds).map DirRow.id = List.range' (base + 1) ds.length := by
  intro ds
  induction ds with
  | nil => intro base; rfl
  | cons d ds ih =>
      intro base
      rw [subdirRows, List.map_cons, ih, List.length_cons]
      rw [List.range'_succ]

theorem subdirRows_length (fsid pid : Nat) (ds : List Entry) (base : Nat) :
    (subdirRows fsid pid base ds).length = ds.length := by
  have := subdirRows_map_id fsid pid ds base
  have h1 := congrArg List.length this
  simpa using h1

theorem mem_subdirRows {fsid pid : Nat} :
    ∀ {ds : List Entry} {base : Nat} {r : DirRow}, r ∈ subdirRows fsid pid base ds →
    r.parent_id = pid ∧ r.filesystem_id = fsid ∧ r.nfiles = 0 ∧
      base < r.id ∧ r.id ≤ base + ds.length ∧ ∃ d ∈ ds, r.name = d.name := by
  intro ds
  induction ds with
  | nil => intro base r h; simp [subdirRows] at h
  | cons d ds ih =>
      intro base r h
      rw [subdirRows] at h
      rcases List.mem_cons.1 h with h1 | h2
      · subst h1
        refine ⟨rfl, rfl, rfl, ?_, ?_, d, List.mem_cons_self .., rfl⟩
        · show base < base + 1
          omega
        · show base + 1 ≤ base + (ds.length + 1)
          omega
      · obtain ⟨hp, hf, hn, hlt, hle, d', hd', hnm⟩ := ih h2
        refine ⟨hp, hf, hn, by omega, ?_, d', List.mem_cons_of_mem _ hd', hnm⟩
        show r.id ≤ base + (ds.length + 1)
        omega

theorem mem_subdirParents {dirpath : FPath} :
    ∀ {ds : List Entry} {base : Nat} {pr : FPath × Nat}, pr ∈ subdirParents dirpath base ds →
    (∃ d ∈ ds, pr.1 = pathJoin dirpath d.name) ∧ base < pr.2 ∧ pr.2 ≤ base + ds.length := by
  intro ds
  induction ds with
  | nil => intro base pr h; simp [subdirParents] at h
  | cons d ds ih =>
      intro base pr h
      rw [subdirParents] at h
      rcases List.mem_append.1 h with h1 | h2
      · obtain ⟨⟨d', hd', hk⟩, hlt, hle⟩ := ih h1
        refine ⟨⟨d', List.mem_cons_of_mem _ hd', hk⟩, by omega, ?_⟩
        show pr.2 ≤ base + (ds.length + 1)
        omega
      · simp only [List.mem_singleton] at h2
        subst h2
        refine ⟨⟨d, List.mem_cons_self .., rfl⟩, by omega, ?_⟩
        show base + 1 ≤ base + (ds.length + 1)
        omega

/-- The row inserted for a subdirectory and its `parents` registration agree. -/
theorem subdir_link {fsid pid : Nat} {dirpath : FPath} :
    ∀ {ds : List Entry} {base : Nat} {r : DirRow}, r ∈ subdirRows fsid pid base ds →
    (pathJoin dirpath r.name, r.id) ∈ subdirParents dirpath base ds := by
  intro ds
  induction ds with
  | nil => intro base r h; simp [subdirRows] at h
  | cons d ds ih =>
      intro base r h
      rw [subdirRows] at h
      rw [subdirParents]
      rcases List.mem_cons.1 h with h1 | h2
      · subst h1
        exact List.mem_append.2 (Or.inr (by simp))
      · exact List.mem_append.2 (Or.inl (ih h2))

theorem subdirParents_keys {dirpath : FPath} :
    ∀ {ds : List Entry} {base : Nat},
    (subdirParents dirpath base ds).map Prod.fst =
      ((subdirRows 0 0 base ds).map fun r => pathJoin dirpath r.name).reverse := by
  intro ds
  induction ds with
  | nil => intro base; rfl
  | cons d ds ih =>
      intro base
      rw [subdirParents, subdirRows]
      simp [ih]

theorem pathJoin_inj {p : FPath} {n1 n2 : String} (h : pathJoin p n1 = pathJoin p n2) :
    n1 = n2 := by
  simpa [pathJoin] using h

theorem strictBelow_pathJoin (top : FPath) (n : String) : strictBelow top (pathJoin top n) :=
  ⟨[n], by simp, rfl⟩

theorem strictBelow_of_below_pathJoin {top k : FPath} {n : String}
    (h : strictBelow (pathJoin top n) k) : strictBelow top k := by
  obtain ⟨rest, hne, hk⟩ := h
  exact ⟨n :: rest, by simp, by simpa [pathJoin] using hk⟩

theorem not_strictBelow_self (top : FPath) : ¬ strictBelow top top := by
  rintro ⟨rest, hne, hk⟩
  have := congrArg List.length hk
  simp at this
  exact hne this

theorem pathJoin_ne_self (top : FPath) (n : String) : pathJoin top n ≠ top := by
  intro h
  have := congrArg List.length h
  simp [pathJoin] at this

theorem not_strictBelow_pathJoin_self (top : FPath) (n : String) :
    ¬ strictBelow (pathJoin top n) top := by
  rintro ⟨rest, hne, hk⟩
  have := congrArg List.length hk
  simp [pathJoin] at this

/-- A path at or below one child subtree is neither the other child's path nor
below it, when the two child names differ. -/
theorem child_paths_separate {top k : FPath} {n1 n2 : String} (hne : n1 ≠ n2)
    (h : k = pathJoin top n1 ∨ strictBelow (pathJoin top n1) k) :
    k ≠ pathJoin top n2 ∧ ¬ strictBelow (pathJoin top n2) k := by
  constructor
  · intro hk
    rcases h with h | ⟨rest, hrne, hrk⟩
    · exact hne (pathJoin_inj (h ▸ hk))
    · rw [hk] at hrk
      simp only [pathJoin, List.append_assoc] at hrk
      have h2 := List.append_cancel_left hrk
      injection h2 with h3 h4
      exact hne h3.symm
  · rintro ⟨rest2, hrne2, hrk2⟩
    rcases h with h | ⟨rest, hrne, hrk⟩
    · rw [h] at hrk2
      simp only [pathJoin, List.append_assoc] at hrk2
      have h2 := List.append_cancel_left hrk2
      injection h2 with h3 h4
      exact hne h3
    · rw [hrk] at hrk2
      simp only [pathJoin, List.append_assoc] at hrk2
      have h2 := List.append_cancel_left hrk2
      injection h2 with h3 h4
      exact hne h3

theorem subdirParents_keys_nodup {dirpath : FPath} :
    ∀ {ds : List Entry} {base : Nat}, (ds.map Entry.name).Nodup →
    ((subdirParents dirpath base ds).map Prod.fst).Nodup := by
  intro ds
  induction ds with
  | nil => intro base _; simp [subdirParents]
  | cons d ds ih =>
      intro base hnd
      rw [List.map_cons, List.nodup_cons] at hnd
      rw [subdirParents, List.map_append]
      refine List.Nodup.append (ih hnd.2) (by simp) ?_
      intro k hk1 hk2
      simp only [List.map_cons, List.map_nil, List.mem_singleton] at hk2
      subst hk2
      obtain ⟨pr, hpr, hfst⟩ := List.mem_map.1 hk1
      obtain ⟨⟨d', hd', hk⟩, _, _⟩ := mem_subdirParents hpr
      have : d'.name = d.name := pathJoin_inj (by rw [← hfst, hk])
      exact hnd.1 (this ▸ List.mem_map.2 ⟨d', hd', rfl⟩)

theorem subdirParents_vals_nodup {dirpath : FPath} :
    ∀ {ds : List Entry} {base : Nat},
    ((subdirParents dirpath base ds).map Prod.snd).Nodup := by
  intro ds
  induction ds with
  | nil => intro base; simp [subdirParents]
  | cons d ds ih =>
      intro base
      rw [subdirParents, List.map_append]
      refine List.Nodup.append ih (by simp) ?_
      intro v hv1 hv2
      simp only [List.map_cons, List.map_nil, List.mem_singleton] at hv2
      subst hv2
      obtain ⟨pr, hpr, hsnd⟩ := List.mem_map.1 hv1
      obtain ⟨_, hlt, _⟩ := mem_subdirParents hpr
      omega

theorem runTriples_append (fsid : Nat) (l1 l2 : List Triple) :
    ∀ st, runTriples fsid (l1 ++ l2) st =
      (runTriples fsid l1 st).bind (runTriples fsid l2) := by
  induction l1 with
  | nil => intro st; simp [runTriples]
  | cons t ts ih =>
      intro st
      rw [List.cons_append, runTriples, runTriples]
      rcases processTriple fsid st t with _ | st1
      · rfl
      · exact ih st1

theorem addSubdirs_spec (fsid : Nat) (dirpath : FPath) :
    ∀ (ds : List Entry) (st : ScanState) (pid : Nat),
    plookup st.parents dirpath = some pid →
    addSubdirs fsid dirpath ds st =
      some ⟨st.rows ++ subdirRows fsid pid st.lastId ds,
            subdirParents dirpath st.lastId ds ++ st.parents,
            st.lastId + ds.length⟩ := by
  intro ds
  induction ds with
  | nil =>
      intro st pid h
      simp [addSubdirs, subdirRows, subdirParents]
  | cons d ds ih =>
      intro st pid h
      rw [addSubdirs]
      have hl : plookup ((pathJoin dirpath d.name, st.lastId + 1) :: st.parents) dirpath
          = some pid := by
        rw [plookup, if_neg (pathJoin_ne_self dirpath d.name)]
        exact h
      rw [hl, Option.some_bind, ih _ pid hl]
      rw [subdirRows, subdirParents]
      simp only [Option.some_inj, ScanState.mk.injEq]
      refine ⟨by simp, by simp, ?_⟩
      show st.lastId + 1 + ds.length = st.lastId + (ds.length + 1)
      omega

theorem subdirParents_row (fsid pid : Nat) {dirpath : FPath} :
    ∀ {ds : List Entry} {base : Nat} {pr : FPath × Nat}, pr ∈ subdirParents dirpath base ds →
    ∃ r ∈ subdirRows fsid pid base ds, r.id = pr.2 ∧ pr.1 = pathJoin dirpath r.name := by
  intro ds
  induction ds with
  | nil => intro base pr h; simp [subdirParents] at h
  | cons d ds ih =>
      intro base pr h
      rw [subdirParents] at h
      rw [subdirRows]
      rcases List.mem_append.1 h with h1 | h2
      · obtain ⟨r, hr, hid, hk⟩ := ih h1
        exact ⟨r, List.mem_cons_of_mem _ hr, hid, hk⟩
      · simp only [List.mem_singleton] at h2
        subst h2
        exact ⟨⟨base + 1, fsid, pid, 0, d.name⟩, List.mem_cons_self .., rfl, rfl⟩

theorem processTriple_spec (fsid : Nat) (st : ScanState) (dirpath : FPath)
    (dirnames filenames : List Entry) (pid : Nat)
    (hl : plookup st.parents dirpath = some pid)
    (hone : (st.rows.filter fun r => r.id == pid).length = 1) :
    processTriple fsid st (dirpath, dirnames, filenames) =
      some ⟨setNfiles st.rows pid filenames.length ++ subdirRows fsid pid st.lastId dirnames,
            subdirParents dirpath st.lastId dirnames ++ st.parents,
            st.lastId + dirnames.length⟩ := by
  rw [processTriple]
  show (plookup st.parents dirpath).bind _ = _
  rw [hl, Option.some_bind, if_pos hone]
  exact addSubdirs_spec fsid dirpath dirnames _ pid hl

/-- Processing one walk triple preserves the scan invariant. -/
theorem scanInv_step {fsid : Nat} {fsname dirpath : FPath} {st : ScanState}
    {dirnames : List Entry} {nfl pid : Nat}
    (inv : ScanInv fsid fsname st)
    (hl : plookup st.parents dirpath = some pid)
    (hfresh : ∀ k ∈ st.parents.map Prod.fst, ¬ strictBelow dirpath k)
    (hnames : ∀ d ∈ dirnames, d.name ≠ "")
    (hnd : (dirnames.map Entry.name).Nodup) :
    ScanInv fsid fsname
      ⟨setNfiles st.rows pid nfl ++ subdirRows fsid pid st.lastId dirnames,
       subdirParents dirpath st.lastId dirnames ++ st.parents,
       st.lastId + dirnames.length⟩ := by
  obtain ⟨rp, hrp, hrpid0, hrpo0⟩ := inv.pOk _ (plookup_mem hl)
  have hrpid : rp.id = pid := hrpid0
  have hrpo : PathOk st.rows fsname rp dirpath := hrpo0
  have hpid_le : pid ≤ st.lastId := hrpid ▸ inv.idLe rp hrp
  have hvals_le : ∀ pr ∈ st.parents, pr.2 ≤ st.lastId := by
    intro pr hpr
    obtain ⟨r, hr, hid, _⟩ := inv.pOk pr hpr
    exact hid ▸ inv.idLe r hr
  have hrows' : (setNfiles st.rows pid nfl ++ subdirRows fsid pid st.lastId dirnames).map
      DirRow.id = st.rows.map DirRow.id ++ List.range' (st.lastId + 1) dirnames.length := by
    rw [List.map_append, setNfiles_map_id, subdirRows_map_id]
  -- the Path Resolver result for the parent, usable at any fuel at least old length + 1
  have hgetp : getDir (setNfiles st.rows pid nfl ++ subdirRows fsid pid st.lastId dirnames) pid
      = some (if rp.id = pid then { rp with nfiles := nfl } else rp) := by
    have h1 : getDir st.rows pid = some rp := hrpid ▸ getDir_eq_of_mem_nodup hrp inv.idsNodup
    have h2 := getDir_setNfiles st.rows pid nfl pid
    rw [h1] at h2
    exact getDir_append_left h2 _
  refine ⟨?_, ?_, ?_, ?_, ?_, ?_, ?_, ?_, ?_⟩
  · -- idsNodup
    rw [hrows']
    refine List.Nodup.append inv.idsNodup (List.nodup_range' _ _) ?_
    intro a ha hb
    obtain ⟨r, hr, hid⟩ := List.mem_map.1 ha
    have h1 : a ≤ st.lastId := hid ▸ inv.idLe r hr
    obtain ⟨i, hi, hai⟩ := List.mem_range'.1 hb
    omega
  · -- idLe
    intro r hr
    show r.id ≤ st.lastId + dirnames.length
    rcases List.mem_append.1 hr with h1 | h2
    · obtain ⟨r0, hr0, hval⟩ := mem_of_mem_setNfiles h1
      have := inv.idLe r0 hr0
      by_cases hc : r0.id = pid <;> simp [hc] at hval <;> subst hval <;> simp <;> omega
    · have := mem_subdirRows h2
      omega
  · -- pOk
    intro pr hpr
    rcases List.mem_append.1 hpr with hnew | hold
    · obtain ⟨r, hr, hid, hk⟩ := subdirParents_row fsid pid hnew
      obtain ⟨hpar, hfs, hnf, hlt, hle, d, hd, hnm⟩ := mem_subdirRows hr
      have hlen1 : 1 ≤ dirnames.length := by
        obtain ⟨_, hlt2, hle2⟩ := mem_subdirParents hnew
        omega
      refine ⟨r, List.mem_append_right _ hr, hid, ?_⟩
      have hrname : r.name ≠ "" := hnm ▸ hnames d hd
      refine ⟨fun hc => absurd hc hrname, fun _ => ?_⟩
      rw [hk, hpar]
      -- compute the chain for the new row: one unfolding through its parent
      by_cases hrpn : rp.name = ""
      · have hdir : dirpath = fsname := hrpo.1 hrpn
        refine ⟨[], ?_, by simp [pathJoin, hdir]⟩
        rw [chainNames]
        rw [hgetp, Option.some_bind]
        have : (if rp.id = pid then { rp with nfiles := nfl } else rp).name = "" := by
          by_cases hc : rp.id = pid <;> simp [hc, hrpn]
        rw [if_pos this]
      · obtain ⟨ns, hc, hdp⟩ := hrpo.2 hrpn
        refine ⟨ns ++ [rp.name], ?_, ?_⟩
        · rw [chainNames]
          rw [hgetp, Option.some_bind]
          have hname' : (if rp.id = pid then { rp with nfiles := nfl } else rp).name = rp.name := by
            by_cases hcc : rp.id = pid <;> simp [hcc]
          have hpar' : (if rp.id = pid then { rp with nfiles := nfl } else rp).parent_id
              = rp.parent_id := by
            by_cases hcc : rp.id = pid <;> simp [hcc]
          rw [hname', if_neg hrpn, hpar']
          have s1 : chainNames (setNfiles st.rows pid nfl) (st.rows.length + 1) rp.parent_id
              = some ns := by rw [chainNames_setNfiles]; exact hc
          have s2 := @chainNames_append _
            (subdirRows fsid pid st.lastId dirnames) _ _ _ s1
          have s3 : chainNames
              (setNfiles st.rows pid nfl ++ subdirRows fsid pid st.lastId dirnames)
              ((setNfiles st.rows pid nfl ++ subdirRows fsid pid st.lastId dirnames).length)
              rp.parent_id = some ns := by
            refine chainNames_mono s2 ?_
            rw [List.length_append, setNfiles_length, subdirRows_length]
            omega
          rw [s3]
          rfl
        · rw [hdp]
          simp [pathJoin]
    · obtain ⟨r, hr, hid, hpo⟩ := inv.pOk pr hold
      obtain ⟨r', hr', hsk⟩ := sameKey_setNfiles hr pid nfl
      refine ⟨r', List.mem_append_left _ hr', hsk.1.trans hid, ?_⟩
      exact pathOk_of_sameKey hsk (pathOk_setNfiles_append hpo pid nfl _)
  · -- keysNodup
    rw [List.map_append]
    refine List.Nodup.append (subdirParents_keys_nodup hnd) inv.keysNodup ?_
    intro k hk1 hk2
    obtain ⟨pr, hpr, hfst⟩ := List.mem_map.1 hk1
    obtain ⟨⟨d, hd, hkey⟩, _, _⟩ := mem_subdirParents hpr
    have : strictBelow dirpath k := by
      rw [← hfst, hkey]
      exact strictBelow_pathJoin dirpath d.name
    exact hfresh k hk2 this
  · -- valsNodup
    rw [List.map_append]
    refine List.Nodup.append subdirParents_vals_nodup inv.valsNodup ?_
    intro v hv1 hv2
    obtain ⟨pr, hpr, hsnd⟩ := List.mem_map.1 hv1
    obtain ⟨_, hlt, _⟩ := mem_subdirParents hpr
    obtain ⟨pr2, hpr2, hsnd2⟩ := List.mem_map.1 hv2
    have := hvals_le pr2 hpr2
    omega
  · -- reg
    intro r hr
    rcases List.mem_append.1 hr with h1 | h2
    · obtain ⟨r0, hr0, hval⟩ := mem_of_mem_setNfiles h1
      obtain ⟨k, hk⟩ := inv.reg r0 hr0
      have hrid : r.id = r0.id := by
        by_cases hc : r0.id = pid <;> simp [hc] at hval <;> subst hval <;> simp [hc]
      exact ⟨k, hrid ▸ List.mem_append_right _ hk⟩
    · exact ⟨pathJoin dirpath r.name, List.mem_append_left _ (subdir_link h2)⟩
  · -- parentLink
    intro r hr
    rcases List.mem_append.1 hr with h1 | h2
    · obtain ⟨r0, hr0, hval⟩ := mem_of_mem_setNfiles h1
      have hsk : SameKey r0 r := by
        by_cases hc : r0.id = pid <;> simp [hc] at hval <;> subst hval <;>
          simp [SameKey, hc]
      rcases inv.parentLink r0 hr0 with ⟨hn, hp⟩ | ⟨pk, hp1, hp2⟩
      · exact Or.inl ⟨hsk.2.2.1 ▸ hn, by rw [hsk.2.1, hsk.1, hp]⟩
      · refine Or.inr ⟨pk, ?_, ?_⟩
        · rw [hsk.2.1]
          exact List.mem_append_right _ hp1
        · rw [hsk.2.2.1, hsk.1]
          exact List.mem_append_right _ hp2
    · obtain ⟨hpar, _, _, _, _, _⟩ := mem_subdirRows h2
      refine Or.inr ⟨dirpath, ?_, ?_⟩
      · rw [hpar]
        exact List.mem_append_right _ (plookup_mem hl)
      · have := @subdir_link _ _ dirpath _ _ _ h2
        simpa [pathJoin] using List.mem_append_left _ this
  · -- parentLt
    intro r hr
    rcases List.mem_append.1 hr with h1 | h2
    · obtain ⟨r0, hr0, hval⟩ := mem_of_mem_setNfiles h1
      have hsk : SameKey r0 r := by
        by_cases hc : r0.id = pid <;> simp [hc] at hval <;> subst hval <;>
          simp [SameKey, hc]
      rcases inv.parentLt r0 hr0 with hn | hlt
      · exact Or.inl (hsk.2.2.1 ▸ hn)
      · exact Or.inr (by rw [hsk.2.1, hsk.1]; exact hlt)
    · obtain ⟨hpar, _, _, hlt, _, d, hd, hnm⟩ := mem_subdirRows h2
      refine Or.inr ?_
      rw [hpar]
      omega
  · -- fsConst
    intro r hr
    rcases List.mem_append.1 hr with h1 | h2
    · obtain ⟨r0, hr0, hval⟩ := mem_of_mem_setNfiles h1
      have := inv.fsConst r0 hr0
      by_cases hc : r0.id = pid <;> simp [hc] at hval <;> subst hval <;> simpa
    · exact (mem_subdirRows h2).2.1

/-!
## Combinators for the master induction
-/

theorem sameKey_refl (r : DirRow) : SameKey r r := ⟨rfl, rfl, rfl, rfl⟩

theorem sameKey_trans {a b c : DirRow} (h1 : SameKey a b) (h2 : SameKey b c) : SameKey a c :=
  ⟨h2.1.trans h1.1, h2.2.1.trans h1.2.1, h2.2.2.1.trans h1.2.2.1, h2.2.2.2.trans h1.2.2.2⟩

theorem forall₂_sameKey_trans :
    ∀ {l1 l2 l3 : List DirRow}, List.Forall₂ SameKey l1 l2 → List.Forall₂ SameKey l2 l3 →
    List.Forall₂ SameKey l1 l3 := by
  intro l1
  induction l1 with
  | nil =>
      intro l2 l3 h1 h2
      cases h1
      cases h2
      exact List.Forall₂.nil
  | cons a l1 ih =>
      intro l2 l3 h1 h2
      cases h1 with
      | cons hab h1' =>
          cases h2 with
          | cons hbc h2' => exact List.Forall₂.cons (sameKey_trans hab hbc) (ih h1' h2')

theorem forall₂_sameKey_setNfiles (rows : List DirRow) (i n : Nat) :
    List.Forall₂ SameKey rows (setNfiles rows i n) := by
  induction rows with
  | nil => exact List.Forall₂.nil
  | cons a rows ih =>
      rw [setNfiles, List.map_cons]
      refine List.Forall₂.cons ?_ ih
      by_cases hc : a.id = i <;> simp [hc, SameKey]

theorem forall₂_split {R : DirRow → DirRow → Prop} :
    ∀ {l1 l2 m : List DirRow}, List.Forall₂ R (l1 ++ l2) m →
    ∃ m1 m2, m = m1 ++ m2 ∧ List.Forall₂ R l1 m1 ∧ List.Forall₂ R l2 m2 := by
  intro l1
  induction l1 with
  | nil => intro l2 m h; exact ⟨[], m, rfl, List.Forall₂.nil, h⟩
  | cons a l1 ih =>
      intro l2 m h
      rw [List.cons_append] at h
      cases h with
      | cons hab h' =>
          obtain ⟨m1, m2, rfl, hf1, hf2⟩ := ih h'
          exact ⟨_ :: m1, m2, rfl, List.Forall₂.cons hab hf1, hf2⟩

theorem forall₂_sameKey_mem_id {l1 l2 : List DirRow} (h : List.Forall₂ SameKey l1 l2) :
    ∀ r ∈ l2, ∃ r0 ∈ l1, r.id = r0.id := by
  induction h with
  | nil => intro r hr; simp at hr
  | cons hab h' ih =>
      intro r hr
      rcases List.mem_cons.1 hr with h1 | h2
      · subst h1
        exact ⟨_, List.mem_cons_self .., hab.1⟩
      · obtain ⟨r0, hr0, hid⟩ := ih r h2
        exact ⟨r0, List.mem_cons_of_mem _ hr0, hid⟩

theorem snd_nodup_eq {ps : List (FPath × Nat)} {pr1 pr2 : FPath × Nat}
    (h1 : pr1 ∈ ps) (h2 : pr2 ∈ ps) (heq : pr1.2 = pr2.2)
    (hnd : (ps.map Prod.snd).Nodup) : pr1 = pr2 := by
  induction ps with
  | nil => simp at h1
  | cons q ps ih =>
      rw [List.map_cons, List.nodup_cons] at hnd
      rcases List.mem_cons.1 h1 with ha | ha <;> rcases List.mem_cons.1 h2 with hb | hb
      · rw [ha, hb]
      · subst ha
        exact absurd (heq ▸ List.mem_map.2 ⟨pr2, hb, rfl⟩) hnd.1
      · subst hb
        exact absurd (heq ▸ List.mem_map.2 ⟨pr1, ha, rfl⟩) hnd.1
      · exact ih ha hb hnd.2

theorem strictBelow_length {p k : FPath} (h : strictBelow p k) : p.length < k.length := by
  obtain ⟨rest, hne, hk⟩ := h
  subst hk
  have : 0 < rest.length := List.length_pos.2 hne
  simp
  omega

theorem exclAt_below {top : FPath} {n : String} {k : FPath} (h : exclAt (pathJoin top n) k) :
    strictBelow top k := by
  rcases h with h | h
  · exact h ▸ strictBelow_pathJoin top n
  · exact strictBelow_of_below_pathJoin h

theorem exclChildren_below {top : FPath} {ds : List Entry} {k : FPath}
    (h : exclChildren top ds k) : strictBelow top k := by
  obtain ⟨d, _, _, hk⟩ := h
  exact exclAt_below hk

theorem subdirParents_key_of_mem {dirpath : FPath} :
    ∀ {ds : List Entry} {base : Nat} {d : Entry}, d ∈ ds →
    ∃ v, (pathJoin dirpath d.name, v) ∈ subdirParents dirpath base ds := by
  intro ds
  induction ds with
  | nil => intro base d h; simp at h
  | cons d0 ds ih =>
      intro base d h
      rw [subdirParents]
      rcases List.mem_cons.1 h with h1 | h2
      · subst h1
        exact ⟨base + 1, List.mem_append_right _ (by simp)⟩
      · obtain ⟨v, hv⟩ := ih h2
        exact ⟨v, List.mem_append_left _ hv⟩

theorem wfE_dir {nm : String} {rd : Bool} {cs : List Entry} (h : wfE (.dir nm rd cs) = true) :
    (∀ c ∈ cs, c.name ≠ "") ∧ (cs.map Entry.name).Nodup ∧ wfChildren cs = true := by
  rw [wfE] at h
  simp only [Bool.and_eq_true, List.all_eq_true, decide_eq_true_eq] at h
  refine ⟨fun c hc => ?_, h.1.2, h.2⟩
  have := h.1.1 c hc
  simpa using this

theorem wfChildren_mem : ∀ {cs : List Entry} {c : Entry}, wfChildren cs = true → c ∈ cs →
    wfE c = true := by
  intro cs
  induction cs with
  | nil => intro c _ h; simp at h
  | cons a cs ih =>
      intro c hwf hc
      rw [wfChildren, Bool.and_eq_true] at hwf
      rcases List.mem_cons.1 hc with h1 | h2
      · exact h1 ▸ hwf.1
      · exact ih hwf.2 h2

theorem dcount_dir_readable (nm : String) (cs : List Entry) :
    dcount (.dir nm true cs) = (cs.filter Entry.isDirE).length + dcountChildren cs := by
  rw [dcount]

theorem dcount_not_readable (e : Entry) (h : ∀ nm cs, e ≠ .dir nm true cs) : dcount e = 0 := by
  rw [dcount]
  intro nm cs heq
  exact h nm cs heq

theorem dcountChildren_nil : dcountChildren [] = 0 := by rw [dcountChildren]

theorem dcountChildren_cons (d : Entry) (ds : List Entry) :
    dcountChildren (d :: ds) =
      (if d.isDirE then (if d.isLinkE then 0 else dcount d) else 0) + dcountChildren ds := by
  rw [dcountChildren]

theorem forall₂_sameKey_self (l : List DirRow) : List.Forall₂ SameKey l l := by
  induction l with
  | nil => exact List.Forall₂.nil
  | cons a l ih => exact List.Forall₂.cons (sameKey_refl a) ih

/-- Degenerate bundle: nothing processed, nothing changes. -/
theorem masterOut_nil (fsid : Nat) (fsname top : FPath) (excl : FPath → Prop)
    (st : ScanState) (inv : ScanInv fsid fsname st) :
    MasterOut fsid fsname top excl [] 0 st st := by
  refine ⟨by omega, by simp, ⟨[], rfl, by simp⟩, inv, by simp, ?_, fun r0 h _ => h,
    by simp, ⟨st.rows, [], by simp, forall₂_sameKey_self st.rows, by simp⟩⟩
  intro r hr
  exact Or.inr (Or.inl hr)

/-- A helper range lemma with step one. -/
theorem range'_one_append (s a b : Nat) :
    List.range' s a ++ List.range' (s + a) b = List.range' s (a + b) := by
  have h := List.range'_append s a b 1
  simp only [Nat.one_mul, Nat.mul_one] at h
  rw [Nat.add_comm b a] at h
  exact h

/-- The recursion loop over the children listed at `top`: assuming the
entry-level induction hypothesis for strictly smaller trees, running the
concatenated child walks preserves everything `MasterOut` tracks, touching
only keys inside the children's subtrees. -/
theorem masterChildren (fsid : Nat) (fsname top : FPath) (n : Nat)
    (ihE : ∀ (e : Entry) (top2 : FPath) (st : ScanState) (pid : Nat), sizeOf e ≤ n →
      wfE e = true → ScanInv fsid fsname st → plookup st.parents top2 = some pid →
      (∀ k ∈ st.parents.map Prod.fst, ¬ strictBelow top2 k) →
      ∃ st', runTriples fsid (walk top2 e) st = some st' ∧
        MasterOut fsid fsname top2 (exclAt top2) (walk top2 e) (dcount e) st st') :
    ∀ (ds : List Entry) (st2 : ScanState),
    (∀ d ∈ ds, sizeOf d ≤ n) → (∀ d ∈ ds, wfE d = true) →
    (∀ d ∈ ds, d.name ≠ "") → (ds.map Entry.name).Nodup →
    ScanInv fsid fsname st2 →
    (∀ d ∈ ds, d.isDirE = true → ∃ v, plookup st2.parents (pathJoin top d.name) = some v) →
    (∀ d ∈ ds, d.isDirE = true →
      ∀ k ∈ st2.parents.map Prod.fst, ¬ strictBelow (pathJoin top d.name) k) →
    ∃ st', runTriples fsid (walkChildren top ds) st2 = some st' ∧
      MasterOut fsid fsname top (exclChildren top ds) (walkChildren top ds)
        (dcountChildren ds) st2 st' := by
  intro ds
  induction ds with
  | nil =>
      intro st2 _ _ _ _ inv2 _ _
      rw [walkChildren_nil, dcountChildren_nil]
      exact ⟨st2, rfl, masterOut_nil fsid fsname top _ st2 inv2⟩
  | cons d ds ihL =>
      intro st2 hsz hwf hnm hnd inv2 hreg2 hfr2
      rw [List.map_cons, List.nodup_cons] at hnd
      by_cases hdir : d.isDirE = true
      · -- directory child: walk its subtree, then the remaining siblings
        have hlink := isLinkE_false_of_isDirE hdir
        have hwc : walkChildren top (d :: ds) =
            walk (pathJoin top d.name) d ++ walkChildren top ds := by
          rw [walkChildren_cons]
          simp [hdir, hlink]
        have hdc : dcountChildren (d :: ds) = dcount d + dcountChildren ds := by
          rw [dcountChildren_cons]
          simp [hdir, hlink]
        obtain ⟨v, hv⟩ := hreg2 d (List.mem_cons_self ..) hdir
        obtain ⟨st3, hrun3, out3⟩ := ihE d (pathJoin top d.name) st2 v
          (hsz d (List.mem_cons_self ..)) (hwf d (List.mem_cons_self ..)) inv2 hv
          (hfr2 d (List.mem_cons_self ..) hdir)
        obtain ⟨o3last, o3ids, ⟨ps3, hps3, hps3p⟩, inv3, o3e1, o3tri, o3g, o3path, o3split⟩ :=
          out3
        have hname_ne : ∀ d' ∈ ds, d'.name ≠ d.name := by
          intro d' hd' he
          exact hnd.1 (he ▸ List.mem_map.2 ⟨d', hd', rfl⟩)
        -- siblings' keys are untouched by the subtree of `d`
        have hkey_sep : ∀ d' ∈ ds, d'.isDirE = true →
            pathJoin top d'.name ∉ ps3.map Prod.fst ∧
            (∀ k ∈ ps3.map Prod.fst, ¬ strictBelow (pathJoin top d'.name) k) := by
          intro d' hd' _
          constructor
          · intro hmem
            obtain ⟨pr, hpr, hfst⟩ := List.mem_map.1 hmem
            have hbel := (hps3p pr hpr).1
            have := child_paths_separate (hname_ne d' hd')
              (Or.inl (rfl : pathJoin top d'.name = pathJoin top d'.name))
            exact this.2 (hfst ▸ hbel)
          · intro k hk hbel'
            obtain ⟨pr, hpr, hfst⟩ := List.mem_map.1 hk
            have hbel := (hps3p pr hpr).1
            have := child_paths_separate (fun he => hname_ne d' hd' he.symm)
              (Or.inr (hfst ▸ hbel))
            exact this.2 hbel'
        obtain ⟨st4, hrun4, out4⟩ := ihL st3
          (fun d' hd' => hsz d' (List.mem_cons_of_mem _ hd'))
          (fun d' hd' => hwf d' (List.mem_cons_of_mem _ hd'))
          (fun d' hd' => hnm d' (List.mem_cons_of_mem _ hd'))
          hnd.2 inv3
          (by
            intro d' hd' hdir'
            obtain ⟨v', hv'⟩ := hreg2 d' (List.mem_cons_of_mem _ hd') hdir'
            refine ⟨v', ?_⟩
            rw [hps3, plookup_append_not_mem (hkey_sep d' hd' hdir').1]
            exact hv')
          (by
            intro d' hd' hdir' k hk
            rw [hps3, List.map_append] at hk
            rcases List.mem_append.1 hk with h1 | h2
            · exact (hkey_sep d' hd' hdir').2 k h1
            · exact hfr2 d' (List.mem_cons_of_mem _ hd') hdir' k h2)
        obtain ⟨o4last, o4ids, ⟨ps4, hps4, hps4p⟩, inv4, o4e1, o4tri, o4g, o4path, o4split⟩ :=
          out4
        refine ⟨st4, ?_, ?_⟩
        · rw [hwc, runTriples_append, hrun3, Option.some_bind]
          exact hrun4
        rw [hwc, hdc]
        refine ⟨by omega, ?_, ?_, inv4, ?_, ?_, ?_, ?_, ?_⟩
        · -- ids
          rw [o4ids, o3ids, List.append_assoc, o3last]
          rw [show st2.lastId + dcount d + 1 = st2.lastId + 1 + dcount d by omega]
          rw [range'_one_append]
        · -- parents extension
          refine ⟨ps4 ++ ps3, by rw [hps4, hps3, List.append_assoc], ?_⟩
          intro pr hpr
          rcases List.mem_append.1 hpr with h1 | h2
          · have := hps4p pr h1
            exact ⟨this.1, by omega⟩
          · have := hps3p pr h2
            exact ⟨strictBelow_of_below_pathJoin this.1, this.2⟩
        · -- every processed triple got its nfiles
          intro tr htr
          rcases List.mem_append.1 htr with h1 | h2
          · obtain ⟨r, hr, hreg, hnf⟩ := o3e1 tr h1
            have hrid : r.id ≤ st3.lastId := inv3.idLe r hr
            have hkr : ¬ exclChildren top ds tr.1 := by
              intro hex
              obtain ⟨d', hd', hdir', hexat⟩ := hex
              have hsep := child_paths_separate
                (fun he => hname_ne d' hd' he.symm) (o3path tr h1)
              rcases hexat with he | he
              · exact hsep.1 he
              · exact hsep.2 he
            refine ⟨r, ?_, ?_, hnf⟩
            · refine o4g r hr ?_
              intro pr hpr hpid
              have heq : pr = (tr.1, r.id) :=
                snd_nodup_eq hpr hreg hpid inv3.valsNodup
              rw [heq]
              exact hkr
            · rw [hps4]
              exact List.mem_append_right _ hreg
          · exact o4e1 tr h2
        · -- trichotomy
          intro r hr
          rcases o4tri r hr with ⟨tr, htr, hreg, hnf⟩ | hr3 | hnew
          · exact Or.inl ⟨tr, List.mem_append_right _ htr, hreg, hnf⟩
          · rcases o3tri r hr3 with ⟨tr, htr, hreg, hnf⟩ | hr2 | hnew3
            · refine Or.inl ⟨tr, List.mem_append_left _ htr, ?_, hnf⟩
              rw [hps4]
              exact List.mem_append_right _ hreg
            · exact Or.inr (Or.inl hr2)
            · exact Or.inr (Or.inr hnew3)
          · exact Or.inr (Or.inr ⟨by omega, hnew.2⟩)
        · -- untouched rows
          intro r0 hr0 hkeys
          have hr0id : r0.id ≤ st2.lastId := inv2.idLe r0 hr0
          have h3 : r0 ∈ st3.rows := by
            refine o3g r0 hr0 ?_
            intro pr hpr hpid
            intro hex
            exact hkeys pr hpr hpid
              ⟨d, List.mem_cons_self .., hdir, hex⟩
          refine o4g r0 h3 ?_
          intro pr hpr hpid
          rw [hps3] at hpr
          rcases List.mem_append.1 hpr with h1 | h2
          · have := (hps3p pr h1).2
            omega
          · intro hex
            obtain ⟨d', hd', hdir', hexat⟩ := hex
            exact hkeys pr h2 hpid
              ⟨d', List.mem_cons_of_mem _ hd', hdir', hexat⟩
        · -- triple paths
          intro tr htr
          rcases List.mem_append.1 htr with h1 | h2
          · rcases o3path tr h1 with he | he
            · exact Or.inr (he ▸ strictBelow_pathJoin top d.name)
            · exact Or.inr (strictBelow_of_below_pathJoin he)
          · exact o4path tr h2
        · -- rows split
          obtain ⟨old3, new3, hsp3, hf3, hnew3⟩ := o3split
          obtain ⟨old4, new4, hsp4, hf4, hnew4⟩ := o4split
          rw [hsp3] at hf4
          obtain ⟨o1, o2, ho12, hfo1, hfo2⟩ := forall₂_split hf4
          refine ⟨o1, o2 ++ new4, by rw [hsp4, ho12, List.append_assoc], forall₂_sameKey_trans hf3 hfo1, ?_⟩
          intro r hr
          rcases List.mem_append.1 hr with h1 | h2
          · obtain ⟨r0, hr0, hid⟩ := forall₂_sameKey_mem_id hfo2 r h1
            have := hnew3 r0 hr0
            omega
          · have := hnew4 r h2
            omega
      · -- non-directory child: contributes nothing
        have hwc : walkChildren top (d :: ds) = walkChildren top ds := by
          rw [walkChildren_cons]
          simp [hdir]
        have hdc : dcountChildren (d :: ds) = dcountChildren ds := by
          rw [dcountChildren_cons]
          simp [hdir]
        obtain ⟨st', hrun, out⟩ := ihL st2
          (fun d' hd' => hsz d' (List.mem_cons_of_mem _ hd'))
          (fun d' hd' => hwf d' (List.mem_cons_of_mem _ hd'))
          (fun d' hd' => hnm d' (List.mem_cons_of_mem _ hd'))
          hnd.2 inv2
          (fun d' hd' => hreg2 d' (List.mem_cons_of_mem _ hd'))
          (fun d' hd' => hfr2 d' (List.mem_cons_of_mem _ hd'))
        refine ⟨st', by rw [hwc]; exact hrun, ?_⟩
        rw [hwc, hdc]
        obtain ⟨olast, oids, hps, oinv, oe1, otri, og, opath, osplit⟩ := out
        refine ⟨olast, oids, hps, oinv, oe1, otri, ?_, opath, osplit⟩
        intro r0 hr0 hkeys
        refine og r0 hr0 ?_
        intro pr hpr hpid hex
        obtain ⟨d', hd', hdir', hexat⟩ := hex
        exact hkeys pr hpr hpid ⟨d', List.mem_cons_of_mem _ hd', hdir', hexat⟩

/-- Master correctness of the hierarchy builder's scan loop over one walked
subtree, by strong induction on the tree size. -/
theorem masterScan (fsid : Nat) (fsname : FPath) : ∀ (N : Nat) (e : Entry) (top : FPath)
    (st : ScanState) (pid : Nat), sizeOf e ≤ N → wfE e = true →
    ScanInv fsid fsname st → plookup st.parents top = some pid →
    (∀ k ∈ st.parents.map Prod.fst, ¬ strictBelow top k) →
    ∃ st', runTriples fsid (walk top e) st = some st' ∧
      MasterOut fsid fsname top (exclAt top) (walk top e) (dcount e) st st' := by
  intro N
  induction N with
  | zero =>
      intro e top st pid hsz
      have : 0 < sizeOf e := by cases e <;> simp_arith
      omega
  | succ n ih =>
      intro e top st pid hsz hwf inv hl hfresh
      match e with
      | .dir nm false cs =>
          rw [walk_unreadable_dir, dcount_not_readable _ (by intro a b h; injection h; simp_all)]
          exact ⟨st, rfl, masterOut_nil fsid fsname top _ st inv⟩
      | .file nm sz mt =>
          rw [walk_not_readable_dir top _ (by intro a b h; exact Entry.noConfusion h),
            dcount_not_readable _ (by intro a b h; exact Entry.noConfusion h)]
          exact ⟨st, rfl, masterOut_nil fsid fsname top _ st inv⟩
      | .symlink nm tg =>
          rw [walk_not_readable_dir top _ (by intro a b h; exact Entry.noConfusion h),
            dcount_not_readable _ (by intro a b h; exact Entry.noConfusion h)]
          exact ⟨st, rfl, masterOut_nil fsid fsname top _ st inv⟩
      | .dir nm true cs =>
          obtain ⟨hnames, hnd, hwfc⟩ := wfE_dir hwf
          obtain ⟨rp, hrp, hrpid0, hrpo0⟩ := inv.pOk _ (plookup_mem hl)
          have hrpid : rp.id = pid := hrpid0
          have hone := filter_id_length_one hrp hrpid inv.idsNodup
          have hnamesD : ∀ d ∈ cs.filter Entry.isDirE, d.name ≠ "" :=
            fun d hd => hnames d (List.mem_of_mem_filter hd)
          have hndD : ((cs.filter Entry.isDirE).map Entry.name).Nodup :=
            hnd.sublist (List.Sublist.map Entry.name (List.filter_sublist cs))
          have hps := processTriple_spec fsid st top (cs.filter Entry.isDirE)
            (cs.filter fun x => !x.isDirE) pid hl hone
          have inv1 := @scanInv_step _ _ _ _ _
            ((cs.filter fun x => !x.isDirE).length) _ inv hl hfresh hnamesD hndD
          -- the state after the head triple
          obtain ⟨st1, hst1⟩ :
              ∃ st1, st1 = (⟨setNfiles st.rows pid (cs.filter fun x => !x.isDirE).length ++
                subdirRows fsid pid st.lastId (cs.filter Entry.isDirE),
                subdirParents top st.lastId (cs.filter Entry.isDirE) ++ st.parents,
                st.lastId + (cs.filter Entry.isDirE).length⟩ : ScanState) := ⟨_, rfl⟩
          rw [← hst1] at hps inv1
          obtain ⟨st2, hrun2, out2⟩ := masterChildren fsid fsname top n
            (fun e2 top2 st0 pid0 hsz2 => ih e2 top2 st0 pid0 hsz2)
            cs st1
            (by
              intro d hd
              have := entry_sizeOf_lt hd nm true
              omega)
            (fun d hd => wfChildren_mem hwfc hd)
            hnames hnd inv1
            (by
              intro d hd hdir
              have hdf : d ∈ cs.filter Entry.isDirE := List.mem_filter.2 ⟨hd, hdir⟩
              obtain ⟨v, hv⟩ := @subdirParents_key_of_mem top _ st.lastId _ hdf
              refine ⟨v, plookup_eq_of_mem_nodup ?_ inv1.keysNodup⟩
              rw [hst1]
              exact List.mem_append_left _ hv)
            (by
              intro d hd hdir k hk
              rw [hst1, List.map_append] at hk
              rcases List.mem_append.1 hk with h1 | h2
              · obtain ⟨pr, hpr, hfst⟩ := List.mem_map.1 h1
                obtain ⟨⟨d2, hd2, hkey⟩, _, _⟩ := mem_subdirParents hpr
                intro hbel
                have hlen := strictBelow_length hbel
                rw [← hfst, hkey] at hlen
                simp [pathJoin] at hlen
              · intro hbel
                exact hfresh k h2 (strictBelow_of_below_pathJoin hbel))
          obtain ⟨o2last, o2ids, ⟨ps2, hps2, hps2p⟩, inv2f, o2e1, o2tri, o2g, o2path, o2split⟩ :=
            out2
          refine ⟨st2, ?_, ?_⟩
          · rw [walk_readable, runTriples, hps, Option.some_bind]
            exact hrun2
          rw [walk_readable, dcount_dir_readable]
          have hst1last : st1.lastId = st.lastId + (cs.filter Entry.isDirE).length := by
            rw [hst1]
          have hst1ids : st1.rows.map DirRow.id =
              st.rows.map DirRow.id ++
                List.range' (st.lastId + 1) (cs.filter Entry.isDirE).length := by
            rw [hst1]
            show (setNfiles st.rows pid _ ++ subdirRows fsid pid st.lastId _).map DirRow.id = _
            rw [List.map_append, setNfiles_map_id, subdirRows_map_id]
          refine ⟨by omega, ?_, ?_, inv2f, ?_, ?_, ?_, ?_, ?_⟩
          · -- ids
            rw [o2ids, hst1ids, List.append_assoc, hst1last]
            rw [show st.lastId + (cs.filter Entry.isDirE).length + 1
                = st.lastId + 1 + (cs.filter Entry.isDirE).length by omega]
            rw [range'_one_append]
          · -- parents extension
            refine ⟨ps2 ++ subdirParents top st.lastId (cs.filter Entry.isDirE), ?_, ?_⟩
            · rw [hps2, hst1, List.append_assoc]
            · intro pr hpr
              rcases List.mem_append.1 hpr with h1 | h2
              · have := hps2p pr h1
                refine ⟨this.1, by omega⟩
              · obtain ⟨⟨d2, hd2, hkey⟩, hlt, _⟩ := mem_subdirParents h2
                exact ⟨hkey ▸ strictBelow_pathJoin top d2.name, hlt⟩
          · -- every triple's nfiles, the head triple included
            intro tr htr
            rcases List.mem_cons.1 htr with h1 | h2
            · subst h1
              have hmem1 : ({ rp with nfiles := (cs.filter fun x => !x.isDirE).length }
                  : DirRow) ∈ st1.rows := by
                rw [hst1]
                refine List.mem_append_left _ ?_
                have := mem_setNfiles_of_mem hrp
                  (i := pid) ((cs.filter fun x => !x.isDirE).length)
                rwa [if_pos hrpid] at this
              have hreg1 : (top, pid) ∈ st1.parents := by
                rw [hst1]
                exact List.mem_append_right _ (plookup_mem hl)
              refine ⟨{ rp with nfiles := (cs.filter fun x => !x.isDirE).length }, ?_, ?_, rfl⟩
              · refine o2g _ hmem1 ?_
                intro pr hpr hpid
                have heq : pr = (top, pid) := by
                  refine snd_nodup_eq hpr hreg1 ?_ inv1.valsNodup
                  simpa [hrpid] using hpid
                rw [heq]
                intro hex
                exact not_strictBelow_self top (exclChildren_below hex)
              · show (top, ({ rp with nfiles := _ } : DirRow).id) ∈ st2.parents
                rw [hps2]
                refine List.mem_append_right _ ?_
                simpa [hrpid] using hreg1
            · exact o2e1 tr h2
          · -- trichotomy
            intro r hr
            rcases o2tri r hr with ⟨tr, htr, hreg, hnf⟩ | hr1 | hnew
            · exact Or.inl ⟨tr, List.mem_cons_of_mem _ htr, hreg, hnf⟩
            · rw [hst1] at hr1
              rcases List.mem_append.1 hr1 with hset | hnewrow
              · obtain ⟨r0, hr0, hval⟩ := mem_of_mem_setNfiles hset
                by_cases hc : r0.id = pid
                · rw [if_pos hc] at hval
                  refine Or.inl ⟨(top, cs.filter Entry.isDirE, cs.filter fun x => !x.isDirE),
                    List.mem_cons_self .., ?_, by rw [hval]⟩
                  have : r.id = pid := by rw [hval]; exact hc
                  rw [this, hps2, hst1]
                  exact List.mem_append_right _
                    (List.mem_append_right _ (plookup_mem hl))
                · rw [if_neg hc] at hval
                  exact Or.inr (Or.inl (hval ▸ hr0))
              · obtain ⟨_, _, hnf0, hlt, _, _⟩ := mem_subdirRows hnewrow
                exact Or.inr (Or.inr ⟨hlt, hnf0⟩)
            · rw [hst1last] at hnew
              exact Or.inr (Or.inr ⟨by omega, hnew.2⟩)
          · -- untouched rows
            intro r0 hr0 hkeys
            have hr0ne : r0.id ≠ pid := by
              intro he
              exact hkeys (top, pid) (plookup_mem hl) (by simpa using he.symm) (Or.inl rfl)
            have h1 : r0 ∈ st1.rows := by
              rw [hst1]
              exact List.mem_append_left _
                (mem_setNfiles_of_mem_ne hr0 hr0ne _)
            refine o2g r0 h1 ?_
            intro pr hpr hpid
            rw [hst1] at hpr
            rcases List.mem_append.1 hpr with hn | ho
            · obtain ⟨_, hlt, _⟩ := mem_subdirParents hn
              have := inv.idLe r0 hr0
              omega
            · intro hex
              exact hkeys pr ho hpid (Or.inr (exclChildren_below hex))
          · -- triple paths
            intro tr htr
            rcases List.mem_cons.1 htr with h1 | h2
            · subst h1
              exact Or.inl rfl
            · exact o2path tr h2
          · -- rows split
            obtain ⟨old2, new2, hsp2, hf2, hnew2⟩ := o2split
            rw [hst1] at hf2
            obtain ⟨o1, o2, ho12, hfo1, hfo2⟩ :=
              @forall₂_split _ (setNfiles st.rows pid (cs.filter fun x => !x.isDirE).length)
                (subdirRows fsid pid st.lastId (cs.filter Entry.isDirE)) _ hf2
            refine ⟨o1, o2 ++ new2, by rw [hsp2, ho12, List.append_assoc],
              forall₂_sameKey_trans
                (forall₂_sameKey_setNfiles st.rows pid ((cs.filter fun x => !x.isDirE).length))
                hfo1, ?_⟩
            intro r hr
            rcases List.mem_append.1 hr with h1 | h2
            · obtain ⟨r0, hr0, hid⟩ := forall₂_sameKey_mem_id hfo2 r h1
              obtain ⟨_, _, _, hlt, _, _⟩ := mem_subdirRows hr0
              omega
            · have := hnew2 r h2
              rw [hst1last] at this
              omega

theorem id_nodup_eq {rows : List DirRow} {r1 r2 : DirRow}
    (hnd : (rows.map DirRow.id).Nodup) (h1 : r1 ∈ rows) (h2 : r2 ∈ rows)
    (hid : r1.id = r2.id) : r1 = r2 := by
  induction rows with
  | nil => simp at h1
  | cons a rows ih =>
      rw [List.map_cons, List.nodup_cons] at hnd
      rcases List.mem_cons.1 h1 with ha | ha <;> rcases List.mem_cons.1 h2 with hb | hb
      · rw [ha, hb]
      · subst ha
        exact absurd (hid ▸ List.mem_map.2 ⟨r2, hb, rfl⟩) hnd.1
      · subst hb
        exact absurd (hid ▸ List.mem_map.2 ⟨r1, ha, rfl⟩) hnd.1
      · exact ih hnd.2 ha hb

/-- Running `find.directories` on a well-formed tree from the freshly seeded
root state succeeds and satisfies the master characterization. -/
theorem directoriesFull_master (fs : FSRow) (tree : Entry) (startId : Nat)
    (hwf : wfE tree = true) :
    ∃ st, directoriesFull fs tree startId [] = some st ∧
      MasterOut fs.id fs.name fs.name (exclAt fs.name) (walk fs.name tree) (dcount tree)
        ⟨[⟨startId, fs.id, startId, 0, ""⟩], [(fs.name, startId)], startId⟩ st := by
  have hl0 : plookup [(fs.name, startId)] fs.name = some startId := by
    simp [plookup]
  have inv0 : ScanInv fs.id fs.name
      ⟨[⟨startId, fs.id, startId, 0, ""⟩], [(fs.name, startId)], startId⟩ := by
    refine ⟨by simp, ?_, ?_, by simp, by simp, ?_, ?_, ?_, ?_⟩
    · intro r hr
      rw [List.mem_singleton] at hr
      subst hr
      exact le_rfl
    · intro pr hpr
      rw [List.mem_singleton] at hpr
      subst hpr
      refine ⟨⟨startId, fs.id, startId, 0, ""⟩, by simp, rfl, fun _ => rfl, fun hn => ?_⟩
      exact absurd rfl hn
    · intro r hr
      rw [List.mem_singleton] at hr
      subst hr
      exact ⟨fs.name, by simp⟩
    · intro r hr
      rw [List.mem_singleton] at hr
      subst hr
      exact Or.inl ⟨rfl, rfl⟩
    · intro r hr
      rw [List.mem_singleton] at hr
      subst hr
      exact Or.inl rfl
    · intro r hr
      rw [List.mem_singleton] at hr
      subst hr
      rfl
  have hfr0 : ∀ k ∈ ([(fs.name, startId)].map Prod.fst : List FPath),
      ¬ strictBelow fs.name k := by
    intro k hk
    rw [List.map_cons, List.map_nil, List.mem_singleton] at hk
    subst hk
    exact not_strictBelow_self fs.name
  obtain ⟨st, hrun, out⟩ := masterScan fs.id fs.name (sizeOf tree) tree fs.name
    ⟨[⟨startId, fs.id, startId, 0, ""⟩], [(fs.name, startId)], startId⟩ startId
    le_rfl hwf inv0 hl0 hfr0
  refine ⟨st, ?_, out⟩
  unfold directoriesFull
  rw [hl0, Option.some_bind]
  show runTriples fs.id (walk fs.name tree)
    ⟨[] ++ [⟨startId, fs.id, startId, 0, ""⟩], [(fs.name, startId)], startId⟩ = some st
  rw [List.nil_append]
  exact hrun

/-- C5: `directories(fs, startId)` first persists a root Directory with
id `startId`, empty name and itself as parent; every subsequently discovered
subdirectory receives the next sequential id in discovery order (the row list
is ordered by creation and its ids form the dense range
`startId, startId+1, …`), each new row's parent is the already-registered id
of the directory whose listing discovered it (a strictly smaller id); and the
returned value is the highest id allocated,
`startId + (number of rows) - 1`. -/
theorem c5_hierarchy_builder (fs : FSRow) (tree : Entry) (startId : Nat)
    (hwf : wfE tree = true) (st : ScanState)
    (h : directoriesFull fs tree startId [] = some st) :
    (∃ r0 rest, st.rows = r0 :: rest ∧ r0.id = startId ∧ r0.name = "" ∧
      r0.parent_id = startId ∧ r0.filesystem_id = fs.id) ∧
    st.rows.map DirRow.id = List.range' startId st.rows.length ∧
    st.lastId = startId + st.rows.length - 1 ∧
    directories fs tree startId [] = some st.lastId ∧
    (∀ r ∈ st.rows, r.filesystem_id = fs.id) ∧
    (∀ r ∈ st.rows, r.name ≠ "" →
      r.parent_id < r.id ∧
      ∃ pk, (pk, r.parent_id) ∈ st.parents ∧ (pk ++ [r.name], r.id) ∈ st.parents) := by
  obtain ⟨st2, h2, out⟩ := directoriesFull_master fs tree startId hwf
  rw [h] at h2
  have hst : st = st2 := Option.some_inj.1 h2
  subst hst
  obtain ⟨olast, oids, _, oinv, _, _, _, _, ⟨old, new, hsp, hf, hnew⟩⟩ := out
  have holast : st.lastId = startId + dcount tree := olast
  have hlen : st.rows.length = dcount tree + 1 := by
    have := congrArg List.length oids
    simpa using this
  refine ⟨?_, ?_, ?_, ?_, oinv.fsConst, ?_⟩
  · -- the root row comes first
    cases hf with
    | cons hr0 hrest =>
        cases hrest
        obtain ⟨hid, hpar, hnm, hfs⟩ := hr0
        exact ⟨_, new, by simpa using hsp, hid, hnm, hpar, hfs⟩
  · -- dense ids in creation order
    rw [oids, hlen]
    show _ :: _ = _
    rw [List.range'_succ]
    simp
  · omega
  · rw [directories, h]
    rfl
  · intro r hr hname
    rcases oinv.parentLink r hr with ⟨hn, _⟩ | ⟨pk, h1, h2⟩
    · exact absurd hn hname
    · rcases oinv.parentLt r hr with hn | hlt
      · exact absurd hn hname
      · exact ⟨hlt, pk, h1, h2⟩

/-!
## Phase-preservation helpers for `initialize.main`
-/

theorem ingestLoop_preserves (w : World) :
    ∀ (ds : List DirRow) (db : DB),
    (ingestLoop w db ds).1.filesystems = db.filesystems ∧
    (ingestLoop w db ds).1.dirRows = db.dirRows := by
  intro ds
  induction ds with
  | nil => intro db; exact ⟨rfl, rfl⟩
  | cons d ds ih =>
      intro db
      rw [ingestLoop]
      rcases files w db d with _ | rs
      · exact ⟨rfl, rfl⟩
      · exact ih _

theorem fileScanLoop_preserves (w : World) :
    ∀ (fss : List FSRow) (db : DB),
    (fileScanLoop w db fss).1.filesystems = db.filesystems ∧
    (fileScanLoop w db fss).1.dirRows = db.dirRows := by
  intro fss
  induction fss with
  | nil => intro db; exact ⟨rfl, rfl⟩
  | cons fs fss ih =>
      intro db
      rw [fileScanLoop]
      rcases resolveW w fs.name with _ | tree
      · exact ih db
      · by_cases hc : fsFileCount db fs.id = 0
        · rw [if_pos hc]
          have h1 := ingestLoop_preserves w
            (db.dirRows.filter fun d => d.filesystem_id == fs.id && decide (0 < d.nfiles)) db
          rcases hing : ingestLoop w db
              (db.dirRows.filter fun d => d.filesystem_id == fs.id && decide (0 < d.nfiles))
            with ⟨db2, e⟩
          rw [hing] at h1
          rcases e with _ | msg
          · have h2 := ih db2
            simp only at h1 ⊢
            exact ⟨h2.1.trans h1.1, h2.2.trans h1.2⟩
          · exact h1
        · rw [if_neg hc]
          exact ih db

theorem dirScanLoop_not_exists {w : World} {fs : FSRow} (db : DB) (last : Nat)
    (fss : List FSRow) (hres : resolveW w fs.name = none) :
    dirScanLoop w db last (fs :: fss) = dirScanLoop w db last fss := by
  rw [dirScanLoop, hres]

theorem dirScanLoop_zero {w : World} {fs : FSRow} {tree : Entry} (db : DB) (last : Nat)
    (fss : List FSRow) (hres : resolveW w fs.name = some tree)
    (hfil : db.dirRows.filter (fun r => r.filesystem_id == fs.id) = [])
    {stv : ScanState} (hdir : directoriesFull fs tree (last + 1) db.dirRows = some stv) :
    dirScanLoop w db last (fs :: fss) =
      dirScanLoop w { db with dirRows := stv.rows } stv.lastId fss := by
  simp only [dirScanLoop, hres, hfil, hdir]

theorem dirScanLoop_zero_err {w : World} {fs : FSRow} {tree : Entry} (db : DB) (last : Nat)
    (fss : List FSRow) (hres : resolveW w fs.name = some tree)
    (hfil : db.dirRows.filter (fun r => r.filesystem_id == fs.id) = [])
    (hdir : directoriesFull fs tree (last + 1) db.dirRows = none) :
    dirScanLoop w db last (fs :: fss) = ((db, last), some "KeyError") := by
  simp only [dirScanLoop, hres, hfil, hdir]

theorem dirScanLoop_one {w : World} {fs : FSRow} {tree : Entry} (db : DB) (last : Nat)
    (fss : List FSRow) (hres : resolveW w fs.name = some tree) {r : DirRow}
    (hfil : db.dirRows.filter (fun r => r.filesystem_id == fs.id) = [r]) :
    dirScanLoop w db last (fs :: fss) = dirScanLoop w db r.id fss := by
  rw [dirScanLoop, hres, hfil]

theorem dirScanLoop_many {w : World} {fs : FSRow} {tree : Entry} (db : DB) (last : Nat)
    (fss : List FSRow) (hres : resolveW w fs.name = some tree) {r1 r2 : DirRow}
    {rest : List DirRow}
    (hfil : db.dirRows.filter (fun r => r.filesystem_id == fs.id) = r1 :: r2 :: rest) :
    dirScanLoop w db last (fs :: fss) =
      dirScanLoop w db ((db.dirRows.map fun r => r.id).foldl Nat.max 0) fss := by
  rw [dirScanLoop, hres, hfil]

theorem fileScanLoop_not_exists {w : World} {fs : FSRow} (db : DB) (fss : List FSRow)
    (hres : resolveW w fs.name = none) :
    fileScanLoop w db (fs :: fss) = fileScanLoop w db fss := by
  rw [fileScanLoop, hres]

theorem fileScanLoop_skip {w : World} {fs : FSRow} {tree : Entry} (db : DB)
    (fss : List FSRow) (hres : resolveW w fs.name = some tree)
    (hc : fsFileCount db fs.id ≠ 0) :
    fileScanLoop w db (fs :: fss) = fileScanLoop w db fss := by
  rw [fileScanLoop, hres, if_neg hc]

theorem fileScanLoop_ingest {w : World} {fs : FSRow} {tree : Entry} (db : DB)
    (fss : List FSRow) (hres : resolveW w fs.name = some tree)
    (hc : fsFileCount db fs.id = 0) :
    fileScanLoop w db (fs :: fss) =
      match ingestLoop w db
          (db.dirRows.filter fun d => d.filesystem_id == fs.id && decide (0 < d.nfiles)) with
      | (db2, some e) => (db2, some e)
      | (db2, none) => fileScanLoop w db2 fss := by
  rw [fileScanLoop, hres, if_pos hc]

theorem dirScanLoop_preserves (w : World) :
    ∀ (fss : List FSRow) (db : DB) (last : Nat),
    (dirScanLoop w db last fss).1.1.filesystems = db.filesystems ∧
    (dirScanLoop w db last fss).1.1.fileRows = db.fileRows := by
  intro fss
  induction fss with
  | nil => intro db last; exact ⟨rfl, rfl⟩
  | cons fs fss ih =>
      intro db last
      cases hres : resolveW w fs.name with
      | none => rw [dirScanLoop_not_exists db last fss hres]; exact ih db last
      | some tree =>
          cases hfil : db.dirRows.filter fun r => r.filesystem_id == fs.id with
          | nil =>
              cases hdir : directoriesFull fs tree (last + 1) db.dirRows with
              | none => rw [dirScanLoop_zero_err db last fss hres hfil hdir]; exact ⟨rfl, rfl⟩
              | some stv =>
                  rw [dirScanLoop_zero db last fss hres hfil hdir]
                  exact ih _ _
          | cons r rest =>
              cases rest with
              | nil => rw [dirScanLoop_one db last fss hres hfil]; exact ih db _
              | cons r2 rest2 =>
                  rw [dirScanLoop_many db last fss hres hfil]
                  exact ih db _

/-- C6: after a scan, every visited directory's row carries exactly the
number of non-directory entries found directly inside it, every row never
visited (including unreadable directories) keeps the column default 0, and
the file-scan phase never modifies Directory rows afterwards. -/
theorem c6_nfiles_exact (fs : FSRow) (tree : Entry) (startId : Nat)
    (hwf : wfE tree = true) (st : ScanState)
    (h : directoriesFull fs tree startId [] = some st) :
    (∀ tr ∈ walk fs.name tree, ∃ r ∈ st.rows, (tr.1, r.id) ∈ st.parents ∧
      r.nfiles = tr.2.2.length) ∧
    (∀ r ∈ st.rows, (∀ tr ∈ walk fs.name tree, (tr.1, r.id) ∉ st.parents) →
      r.nfiles = 0) ∧
    (∀ (w : World) (db : DB) (fss : List FSRow),
      (fileScanLoop w db fss).1.dirRows = db.dirRows) := by
  obtain ⟨st2, h2, out⟩ := directoriesFull_master fs tree startId hwf
  rw [h] at h2
  have hst : st = st2 := Option.some_inj.1 h2
  subst hst
  obtain ⟨_, _, _, _, oe1, otri, _, _, _⟩ := out
  refine ⟨oe1, ?_, fun w db fss => (fileScanLoop_preserves w fss db).2⟩
  intro r hr hnone
  rcases otri r hr with ⟨tr, htr, hreg, _⟩ | hr0 | hnew
  · exact absurd hreg (hnone tr htr)
  · rw [List.mem_singleton] at hr0
    rw [hr0]
  · exact hnew.2

/-- C7: the Path Resolver reproduces, for every cataloged Directory row, the
real filesystem path the directory was discovered at — the key under which
the scan registered the row id — with the synthetic root (empty name)
resolving to the owning FileSystem's root path. -/
theorem c7_fullpath_roundtrip (fs : FSRow) (tree : Entry) (startId : Nat)
    (hwf : wfE tree = true) (st : ScanState)
    (h : directoriesFull fs tree startId [] = some st) :
    ∀ r ∈ st.rows, ∃ k, (k, r.id) ∈ st.parents ∧
      fullpath st.rows fs.name r = some k ∧
      (r.name = "" → k = fs.name) ∧
      fullpathM ⟨[fs], st.rows, []⟩ r = some k := by
  obtain ⟨st2, h2, out⟩ := directoriesFull_master fs tree startId hwf
  rw [h] at h2
  have hst : st = st2 := Option.some_inj.1 h2
  subst hst
  obtain ⟨_, _, _, oinv, _, _, _, _, _⟩ := out
  intro r hr
  obtain ⟨k, hk⟩ := oinv.reg r hr
  obtain ⟨r2, hr2, hid0, hpo0⟩ := oinv.pOk _ hk
  have hid : r2.id = r.id := hid0
  have hpo : PathOk st.rows fs.name r2 k := hpo0
  have hrr : r2 = r := id_nodup_eq oinv.idsNodup hr2 hr hid
  subst hrr
  have hfp : fullpath st.rows fs.name r2 = some k := by
    rw [fullpath]
    by_cases hn : r2.name = ""
    · rw [if_pos hn, hpo.1 hn]
    · rw [if_neg hn]
      obtain ⟨ns, hc, hkk⟩ := hpo.2 hn
      rw [hc, hkk]
  refine ⟨k, hk, hfp, hpo.1, ?_⟩
  have hfs : r2.filesystem_id = fs.id := oinv.fsConst r2 hr2
  rw [fullpathM]
  show (match List.find? (fun f => f.id == r2.filesystem_id) [fs] with
    | none => none
    | some fsr => fullpath st.rows fsr.name r2) = some k
  rw [List.find?_cons_of_pos _ (by simp [hfs])]
  exact hfp

theorem c5_witness :
    wfE tree1 = true ∧ directoriesFull fs1 tree1 1 [] = some stScan ∧
    ((∃ r0 rest, stScan.rows = r0 :: rest ∧ r0.id = 1 ∧ r0.name = "" ∧
      r0.parent_id = 1 ∧ r0.filesystem_id = fs1.id) ∧
    stScan.rows.map DirRow.id = List.range' 1 stScan.rows.length ∧
    stScan.lastId = 1 + stScan.rows.length - 1 ∧
    directories fs1 tree1 1 [] = some stScan.lastId ∧
    (∀ r ∈ stScan.rows, r.filesystem_id = fs1.id) ∧
    (∀ r ∈ stScan.rows, r.name ≠ "" →
      r.parent_id < r.id ∧
      ∃ pk, (pk, r.parent_id) ∈ stScan.parents ∧ (pk ++ [r.name], r.id) ∈ stScan.parents)) :=
  ⟨by decide, by decide, c5_hierarchy_builder fs1 tree1 1 (by decide) stScan (by decide)⟩

theorem c6_witness :
    wfE tree1 = true ∧ directoriesFull fs1 tree1 1 [] = some stScan ∧
    ((∀ tr ∈ walk fs1.name tree1, ∃ r ∈ stScan.rows, (tr.1, r.id) ∈ stScan.parents ∧
      r.nfiles = tr.2.2.length) ∧
    (∀ r ∈ stScan.rows, (∀ tr ∈ walk fs1.name tree1, (tr.1, r.id) ∉ stScan.parents) →
      r.nfiles = 0) ∧
    (∀ (w : World) (db : DB) (fss : List FSRow),
      (fileScanLoop w db fss).1.dirRows = db.dirRows)) :=
  ⟨by decide, by decide, c6_nfiles_exact fs1 tree1 1 (by decide) stScan (by decide)⟩

theorem c7_witness :
    wfE tree1 = true ∧ directoriesFull fs1 tree1 1 [] = some stScan ∧
    (∀ r ∈ stScan.rows, ∃ k, (k, r.id) ∈ stScan.parents ∧
      fullpath stScan.rows fs1.name r = some k ∧
      (r.name = "" → k = fs1.name) ∧
      fullpathM ⟨[fs1], stScan.rows, []⟩ r = some k) :=
  ⟨by decide, by decide, c7_fullpath_roundtrip fs1 tree1 1 (by decide) stScan (by decide)⟩

/-!
## The Resume Controller (C1, C2, C3)
-/

/-- C1, counterexample to the claim as stated: with the root path existing
and exactly one Directory row present (and the root genuinely containing a
subdirectory), a full run leaves the Directory table exactly as it was — one
row — although re-invoking discovery from that point (which the claim
asserts) would have produced three rows, as the accompanying
`directoriesFull` computation shows.  The code merely records the row's id
and skips the filesystem. -/
theorem c1_counterexample :
    (mainScan opts1 w1 dbOneRow).1 = dbOneRow ∧
    (mainScan opts1 w1 dbOneRow).2 = none ∧
    dbOneRow.dirRows.length = 1 ∧
    (resolveW w1 fs1.name).isSome = true ∧
    (∃ st, directoriesFull fs1 tree1 6 dbOneRow.dirRows = some st ∧ st.rows.length = 3) := by
  refine ⟨by decide, by decide, by decide, by decide, ?_⟩
  exact ⟨⟨[⟨5, 1, 5, 0, ""⟩, ⟨6, 1, 6, 1, ""⟩, ⟨7, 1, 6, 1, "a"⟩],
    [(["data", "rel", "a"], 7), (["data", "rel"], 6)], 7⟩, by decide, by decide⟩

/-- C1 as amended: when exactly one Directory row exists for the (only)
FileSystem and its root path exists, the Resume Controller records that
row's id as the running id baseline and skips directory discovery for the
filesystem entirely — the Directory table is left unchanged by the whole
run. -/
theorem c1_one_row_skips_discovery (o : Opts) (w : World) (db : DB) (fs : FSRow) (r : DirRow)
    (ho : o.overwrite = false) (hfs : db.filesystems = [fs]) (hdr : db.dirRows = [r])
    (hrf : r.filesystem_id = fs.id) :
    (mainScan o w db).1.dirRows = db.dirRows := by
  have hfil : db.dirRows.filter (fun x => x.filesystem_id == fs.id) = [r] := by
    rw [hdr]
    simp [hrf]
  have hfsPhase : fsPhase o db = (db, none) := by
    rw [fsPhase, hfs]
  simp only [mainScan, ho, if_false, Bool.false_eq_true, hfsPhase]
  have hdirloop : dirScanLoop w db 0 db.filesystems = ((db, r.id), none) ∨
      dirScanLoop w db 0 db.filesystems = ((db, 0), none) := by
    rw [hfs]
    cases hres : resolveW w fs.name with
    | none =>
        rw [dirScanLoop_not_exists db 0 [] hres, dirScanLoop]
        exact Or.inr rfl
    | some tree =>
        rw [dirScanLoop_one db 0 [] hres hfil, dirScanLoop]
        exact Or.inl rfl
  rcases hdirloop with hdl | hdl <;> rw [hdl] <;>
    (by_cases hsk : o.skip_files
     · simp [hsk]
     · simp only [hsk, if_false, Bool.false_eq_true]
       exact (fileScanLoop_preserves w db.filesystems db).2)

theorem c1_witness :
    (opts1.overwrite = false ∧ dbOneRow.filesystems = [fs1] ∧
      dbOneRow.dirRows = [⟨5, 1, 5, 0, ""⟩] ∧
      (⟨5, 1, 5, 0, ""⟩ : DirRow).filesystem_id = fs1.id) ∧
    (mainScan opts1 w1 dbOneRow).1.dirRows = dbOneRow.dirRows :=
  ⟨⟨rfl, rfl, rfl, rfl⟩,
   c1_one_row_skips_discovery opts1 w1 dbOneRow fs1 ⟨5, 1, 5, 0, ""⟩ rfl rfl rfl rfl⟩

theorem ingestLoop_err (w : World) :
    ∀ (ds : List DirRow) (db : DB),
    (ingestLoop w db ds).2 = none ∨ (ingestLoop w db ds).2 = some "OSError" := by
  intro ds
  induction ds with
  | nil => intro db; exact Or.inl rfl
  | cons d ds ih =>
      intro db
      rw [ingestLoop]
      rcases files w db d with _ | rs
      · exact Or.inr rfl
      · exact ih _

theorem fileScanLoop_err (w : World) :
    ∀ (fss : List FSRow) (db : DB),
    (fileScanLoop w db fss).2 = none ∨ (fileScanLoop w db fss).2 = some "OSError" := by
  intro fss
  induction fss with
  | nil => intro db; exact Or.inl rfl
  | cons fs fss ih =>
      intro db
      cases hres : resolveW w fs.name with
      | none => rw [fileScanLoop_not_exists db fss hres]; exact ih db
      | some tree =>
          by_cases hc : fsFileCount db fs.id = 0
          · rw [fileScanLoop_ingest db fss hres hc]
            rcases hing : ingestLoop w db
                (db.dirRows.filter fun d => d.filesystem_id == fs.id && decide (0 < d.nfiles))
              with ⟨db2, e⟩
            have he := ingestLoop_err w
              (db.dirRows.filter fun d => d.filesystem_id == fs.id && decide (0 < d.nfiles)) db
            rw [hing] at he
            rcases e with _ | msg
            · exact ih db2
            · simp only at he ⊢
              rcases he with he | he
              · exact absurd he (by simp)
              · exact Or.inr he
          · rw [fileScanLoop_skip db fss hres hc]
            exact ih db

theorem dirScanLoop_err (w : World) :
    ∀ (fss : List FSRow) (db : DB) (last : Nat),
    (dirScanLoop w db last fss).2 = none ∨
    (dirScanLoop w db last fss).2 = some "KeyError" := by
  intro fss
  induction fss with
  | nil => intro db last; exact Or.inl rfl
  | cons fs fss ih =>
      intro db last
      cases hres : resolveW w fs.name with
      | none => rw [dirScanLoop_not_exists db last fss hres]; exact ih db last
      | some tree =>
          cases hfil : db.dirRows.filter fun r => r.filesystem_id == fs.id with
          | nil =>
              cases hdir : directoriesFull fs tree (last + 1) db.dirRows with
              | none => rw [dirScanLoop_zero_err db last fss hres hfil hdir]; exact Or.inr rfl
              | some stv =>
                  rw [dirScanLoop_zero db last fss hres hfil hdir]
                  exact ih _ _
          | cons r rest =>
              cases rest with
              | nil => rw [dirScanLoop_one db last fss hres hfil]; exact ih db _
              | cons r2 rest2 =>
                  rw [dirScanLoop_many db last fss hres hfil]
                  exact ih db _

theorem mainScan_err_of_fsPhase_ok {o : Opts} {w : World} {db dbA : DB}
    (hfp : fsPhase o (if o.overwrite then emptyDB else db) = (dbA, none)) :
    (mainScan o w db).2 = none ∨ (mainScan o w db).2 = some "KeyError" ∨
    (mainScan o w db).2 = some "OSError" := by
  simp only [mainScan]
  simp only [hfp]
  rcases hd : dirScanLoop w dbA 0 dbA.filesystems with ⟨⟨db2, l2⟩, _ | msg⟩
  · simp only [hd]
    by_cases hsk : o.skip_files
    · simp [hsk]
    · simp only [hsk, if_false, Bool.false_eq_true]
      have he3 := fileScanLoop_err w db2.filesystems db2
      rcases he3 with he3 | he3
      · exact Or.inl he3
      · exact Or.inr (Or.inr he3)
  · simp only [hd]
    have he2 := dirScanLoop_err w dbA.filesystems dbA 0
    rw [hd] at he2
    simp only at he2
    rcases he2 with he2 | he2
    · exact absurd he2 (by simp)
    · simp only [Option.some_inj] at he2
      subst he2
      exact Or.inr (Or.inl rfl)

theorem mainScan_err_of_fsPhase_err {o : Opts} {w : World} {db dbA : DB} {e : String}
    (hfp : fsPhase o (if o.overwrite then emptyDB else db) = (dbA, some e)) :
    mainScan o w db = (dbA, some e) := by
  simp only [mainScan]
  simp only [hfp]

/-- C3 as amended: at the Directory-scan and File-scan queries the code
consumes every zero/one/many outcome as its branching signal and no
`NoResultFound`/`MultipleResultsFound` ever escapes; but at the initial
FileSystem-creation query only the zero outcome is caught — with two or more
FileSystem rows in the store (and overwrite off) the run aborts with exactly
the uncaught `MultipleResultsFound`, and that is the only way this error can
arise. -/
theorem c3_one_violation_scope (o : Opts) (w : World) (db : DB) :
    (mainScan o w db).2 = some "MultipleResultsFound" ↔
      (o.overwrite = false ∧ 2 ≤ db.filesystems.length) := by
  constructor
  · intro h
    by_cases ho : o.overwrite
    · exfalso
      have hfp : fsPhase o (if o.overwrite then emptyDB else db) =
          ({ emptyDB with filesystems := mkFileSystems o.filesystem o.release }, none) := by
        rw [if_pos ho]
        rfl
      rcases mainScan_err_of_fsPhase_ok (w := w) hfp with h2 | h2 | h2 <;>
        rw [h] at h2 <;> simp at h2
    · refine ⟨by simpa using ho, ?_⟩
      have hif : (if o.overwrite then emptyDB else db) = db := by
        simp [ho]
      rcases hflist : db.filesystems with _ | ⟨f1, rest⟩
      · exfalso
        have hfp : fsPhase o (if o.overwrite then emptyDB else db) =
            ({ db with filesystems := mkFileSystems o.filesystem o.release }, none) := by
          rw [hif, fsPhase, hflist]
        rcases mainScan_err_of_fsPhase_ok (w := w) hfp with h2 | h2 | h2 <;>
          rw [h] at h2 <;> simp at h2
      · rcases rest with _ | ⟨f2, rest2⟩
        · exfalso
          have hfp : fsPhase o (if o.overwrite then emptyDB else db) = (db, none) := by
            rw [hif, fsPhase, hflist]
          rcases mainScan_err_of_fsPhase_ok (w := w) hfp with h2 | h2 | h2 <;>
            rw [h] at h2 <;> simp at h2
        · simp
  · rintro ⟨ho, hlen⟩
    have hif : (if o.overwrite then emptyDB else db) = db := by
      simp [ho]
    rcases hflist : db.filesystems with _ | ⟨f1, rest⟩
    · rw [hflist] at hlen
      simp at hlen
    · rcases rest with _ | ⟨f2, rest2⟩
      · rw [hflist] at hlen
        simp at hlen
      · have hfp : fsPhase o (if o.overwrite then emptyDB else db) =
            (db, some "MultipleResultsFound") := by
          rw [hif, fsPhase, hflist]
        rw [mainScan_err_of_fsPhase_err (w := w) hfp]

/-- C3, counterexample to the claim as stated: the two-FileSystem catalog
produced by a legitimate first run over two configured roots makes the very
next run abort with the uncaught `MultipleResultsFound` from the initial
FileSystem-creation query — an "expected exactly one row" violation that
does propagate to the caller. -/
theorem c3_counterexample :
    mainScan opts2 w2 emptyDB = (dbTwoFS, none) ∧
    (mainScan opts2 w2 dbTwoFS).2 = some "MultipleResultsFound" := by
  constructor
  · decide
  · decide

/-!
## Replay lemmas for the file-scan phase (C2)
-/

theorem fullpathM_congr {db1 db2 : DB} (h1 : db1.filesystems = db2.filesystems)
    (h2 : db1.dirRows = db2.dirRows) (d : DirRow) : fullpathM db1 d = fullpathM db2 d := by
  unfold fullpathM
  rw [h1, h2]

theorem files_congr {w : World} {db1 db2 : DB} (h1 : db1.filesystems = db2.filesystems)
    (h2 : db1.dirRows = db2.dirRows) (d : DirRow) : files w db1 d = files w db2 d := by
  unfold files
  rw [fullpathM_congr h1 h2]

theorem ingestDelta_congr {w : World} {db1 db2 : DB} (h1 : db1.filesystems = db2.filesystems)
    (h2 : db1.dirRows = db2.dirRows) (ds : List DirRow) :
    ingestDelta w db1 ds = ingestDelta w db2 ds := by
  unfold ingestDelta
  refine List.flatMap_congr ?_
  intro d _
  rw [files_congr h1 h2]

theorem files_directory_id {w : World} {db : DB} {d : DirRow} {rs : List FileRow}
    (h : files w db d = some rs) : ∀ f ∈ rs, f.directory_id = d.id := by
  obtain ⟨p, nm, cs, _, _, hrows⟩ := files_some h
  subst hrows
  intro f hf
  obtain ⟨e, _, hing⟩ := List.mem_filterMap.1 hf
  match e with
  | .dir _ _ _ => simp [ingestEntry] at hing
  | .symlink n t =>
      simp only [ingestEntry, Option.some_inj] at hing
      subst hing
      rfl
  | .file n s m =>
      simp only [ingestEntry, Option.some_inj] at hing
      subst hing
      rfl

theorem ingestDelta_mem {w : World} {db : DB} :
    ∀ {ds : List DirRow} {f : FileRow}, f ∈ ingestDelta w db ds →
    ∃ d ∈ ds, f.directory_id = d.id := by
  intro ds
  induction ds with
  | nil => intro f h; simp [ingestDelta] at h
  | cons d ds ih =>
      intro f h
      rw [ingestDelta, List.flatMap_cons] at h
      rcases List.mem_append.1 h with h1 | h2
      · rcases hf : files w db d with _ | rs
        · rw [hf] at h1; simp at h1
        · rw [hf] at h1
          simp only [Option.getD_some] at h1
          exact ⟨d, List.mem_cons_self .., files_directory_id hf f h1⟩
      · obtain ⟨d', hd', hid⟩ := ih h2
        exact ⟨d', List.mem_cons_of_mem _ hd', hid⟩

theorem ingestLoop_isSome_spec (w : World) :
    ∀ (ds : List DirRow) (db : DB), (∀ d ∈ ds, (files w db d).isSome) →
    ingestLoop w db ds =
      (⟨db.filesystems, db.dirRows, db.fileRows ++ ingestDelta w db ds⟩, none) := by
  intro ds
  induction ds with
  | nil => intro db _; simp [ingestLoop, ingestDelta]
  | cons d ds ih =>
      intro db hall
      rw [ingestLoop]
      rcases hf : files w db d with _ | rs
      · have := hall d (List.mem_cons_self ..)
        rw [hf] at this
        simp at this
      · have hcong : ∀ d', files w { db with fileRows := db.fileRows ++ rs } d'
            = files w db d' := fun d' => files_congr rfl rfl d'
        have hall' : ∀ d' ∈ ds, (files w { db with fileRows := db.fileRows ++ rs } d').isSome := by
          intro d' hd'
          rw [hcong]
          exact hall d' (List.mem_cons_of_mem _ hd')
        simp only [hf]
        rw [ih _ hall']
        have hdel : ingestDelta w { db with fileRows := db.fileRows ++ rs } ds
            = ingestDelta w db ds := ingestDelta_congr rfl rfl ds
        rw [hdel]
        have hcons : ingestDelta w db (d :: ds) = rs ++ ingestDelta w db ds := by
          simp [ingestDelta, hf]
        rw [hcons]
        simp [List.append_assoc]

theorem ingestLoop_none_isSome (w : World) :
    ∀ (ds : List DirRow) (db : DB), (ingestLoop w db ds).2 = none →
    ∀ d ∈ ds, (files w db d).isSome := by
  intro ds
  induction ds with
  | nil => intro db _ d hd; simp at hd
  | cons d0 ds ih =>
      intro db hnone d hd
      rw [ingestLoop] at hnone
      rcases hf : files w db d0 with _ | rs
      · rw [hf] at hnone
        simp at hnone
      · rw [hf] at hnone
        rcases List.mem_cons.1 hd with h1 | h2
        · subst h1
          rw [hf]
          rfl
        · have := ih { db with fileRows := db.fileRows ++ rs } hnone d h2
          rwa [files_congr rfl rfl] at this

theorem fsFileCount_nil {db : DB} (h : db.fileRows = []) (i : Nat) : fsFileCount db i = 0 := by
  unfold fsFileCount
  rw [h]
  rfl

theorem filter_ne_nil_of_mem {rows : List DirRow} {r : DirRow} {p : DirRow → Bool}
    (hr : r ∈ rows) (hp : p r = true) : rows.filter p ≠ [] := by
  intro hnil
  have : r ∈ rows.filter p := List.mem_filter.2 ⟨hr, hp⟩
  rw [hnil] at this
  simp at this

theorem addSubdirs_rows_prefix {fsid : Nat} {dirpath : FPath} :
    ∀ {ds : List Entry} {st st' : ScanState}, addSubdirs fsid dirpath ds st = some st' →
    ∃ added, st'.rows = st.rows ++ added := by
  intro ds
  induction ds with
  | nil =>
      intro st st' h
      rw [addSubdirs, Option.some_inj] at h
      exact ⟨[], by rw [← h]; simp⟩
  | cons d ds ih =>
      intro st st' h
      rw [addSubdirs] at h
      rcases hl : plookup ((pathJoin dirpath d.name, st.lastId + 1) :: st.parents) dirpath
        with _ | pid
      · rw [hl] at h
        simp at h
      · rw [hl, Option.some_bind] at h
        obtain ⟨added, hadd⟩ := ih h
        refine ⟨(⟨st.lastId + 1, fsid, pid, 0, d.name⟩ : DirRow) :: added, ?_⟩
        rw [hadd]
        simp

theorem processTriple_keeps_fs {fsid : Nat} {st st' : ScanState} {t : Triple}
    (h : processTriple fsid st t = some st') {i : Nat}
    (hex : ∃ r ∈ st.rows, r.filesystem_id = i) : ∃ r ∈ st'.rows, r.filesystem_id = i := by
  rw [processTriple] at h
  rcases hl : plookup st.parents t.1 with _ | pid
  · rw [hl] at h; simp at h
  · rw [hl, Option.some_bind] at h
    by_cases hone : (st.rows.filter fun r => r.id == pid).length = 1
    · rw [if_pos hone] at h
      obtain ⟨added, hadd⟩ := addSubdirs_rows_prefix h
      obtain ⟨r, hr, hfs⟩ := hex
      refine ⟨if r.id = pid then { r with nfiles := t.2.2.length } else r, ?_, ?_⟩
      · rw [hadd]
        exact List.mem_append_left _ (mem_setNfiles_of_mem hr pid t.2.2.length)
      · by_cases hc : r.id = pid <;> simp [hc, hfs]
    · rw [if_neg hone] at h
      simp at h

theorem runTriples_keeps_fs {fsid : Nat} :
    ∀ {ts : List Triple} {st st' : ScanState}, runTriples fsid ts st = some st' →
    ∀ {i : Nat}, (∃ r ∈ st.rows, r.filesystem_id = i) → ∃ r ∈ st'.rows, r.filesystem_id = i := by
  intro ts
  induction ts with
  | nil =>
      intro st st' h i hex
      rw [runTriples, Option.some_inj] at h
      exact h ▸ hex
  | cons t ts ih =>
      intro st st' h i hex
      rw [runTriples] at h
      rcases hp : processTriple fsid st t with _ | st1
      · rw [hp] at h; simp at h
      · rw [hp, Option.some_bind] at h
        exact ih h (processTriple_keeps_fs hp hex)

theorem directoriesFull_fs_row {fs : FSRow} {tree : Entry} {i : Nat} {rows0 : List DirRow}
    {st : ScanState} (h : directoriesFull fs tree i rows0 = some st) :
    ∃ r ∈ st.rows, r.filesystem_id = fs.id := by
  rw [directoriesFull] at h
  rcases hl : plookup [(fs.name, i)] fs.name with _ | pid
  · rw [hl] at h; simp at h
  · rw [hl, Option.some_bind] at h
    refine runTriples_keeps_fs h ⟨⟨i, fs.id, pid, 0, ""⟩, ?_, rfl⟩
    exact List.mem_append_right _ (List.mem_singleton.2 rfl)

/-- Replaying the file-scan loop over filesystems whose pending work is
empty adds no File rows and succeeds. -/
theorem fileScanLoop_no_new (w : World) :
    ∀ (fss : List FSRow) (db : DB),
    (∀ fs ∈ fss, ∀ tree, resolveW w fs.name = some tree →
      fsFileCount db fs.id = 0 →
      ((ingestLoop w db (db.dirRows.filter fun d =>
          d.filesystem_id == fs.id && decide (0 < d.nfiles))).2 = none ∧
       ingestDelta w db (db.dirRows.filter fun d =>
          d.filesystem_id == fs.id && decide (0 < d.nfiles)) = [])) →
    fileScanLoop w db fss = (db, none) := by
  intro fss
  induction fss with
  | nil => intro db _; rfl
  | cons fs fss ih =>
      intro db hcond
      cases hres : resolveW w fs.name with
      | none =>
          rw [fileScanLoop_not_exists db fss hres]
          exact ih db fun fs' hfs' => hcond fs' (List.mem_cons_of_mem _ hfs')
      | some tree =>
          by_cases hc : fsFileCount db fs.id = 0
          · obtain ⟨herr, hdel⟩ := hcond fs (List.mem_cons_self ..) tree hres hc
            have hsome := ingestLoop_none_isSome w _ db herr
            have hspec := ingestLoop_isSome_spec w
              (db.dirRows.filter fun d => d.filesystem_id == fs.id && decide (0 < d.nfiles))
              db hsome
            rw [hdel, List.append_nil] at hspec
            rw [fileScanLoop_ingest db fss hres hc, hspec]
            exact ih db fun fs' hfs' => hcond fs' (List.mem_cons_of_mem _ hfs')
          · rw [fileScanLoop_skip db fss hres hc]
            exact ih db fun fs' hfs' => hcond fs' (List.mem_cons_of_mem _ hfs')

/-- A second run over a catalog whose filesystems were created from the same
options, with every existing root already carrying Directory rows and no
pending file work, leaves the Directory and File tables unchanged. -/
theorem mainScan_second (o : Opts) (w : World) (db : DB)
    (ho : o.overwrite = false)
    (hmk : db.filesystems = mkFileSystems o.filesystem o.release)
    (hdirs : ∀ fs ∈ db.filesystems, ∀ tree, resolveW w fs.name = some tree →
      db.dirRows.filter (fun r => r.filesystem_id == fs.id) ≠ [])
    (hfiles : o.skip_files = false → ∀ fs ∈ db.filesystems, ∀ tree,
      resolveW w fs.name = some tree →
      fsFileCount db fs.id = 0 →
      ((ingestLoop w db (db.dirRows.filter fun d =>
          d.filesystem_id == fs.id && decide (0 < d.nfiles))).2 = none ∧
       ingestDelta w db (db.dirRows.filter fun d =>
          d.filesystem_id == fs.id && decide (0 < d.nfiles)) = [])) :
    (mainScan o w db).1.dirRows = db.dirRows ∧
    (mainScan o w db).1.fileRows = db.fileRows := by
  have hif : (if o.overwrite then emptyDB else db) = db := by simp [ho]
  rcases hflist : db.filesystems with _ | ⟨f1, rest⟩
  · -- the store has no FileSystem rows, so none were configured
    have hmk0 : mkFileSystems o.filesystem o.release = [] := hmk.symm.trans hflist
    have hfp : fsPhase o (if o.overwrite then emptyDB else db) =
        ({ db with filesystems := mkFileSystems o.filesystem o.release }, none) := by
      rw [hif, fsPhase, hflist]
    have hd : dirScanLoop w { db with filesystems := mkFileSystems o.filesystem o.release } 0
        ({ db with filesystems := mkFileSystems o.filesystem o.release } : DB).filesystems =
        (({ db with filesystems := mkFileSystems o.filesystem o.release }, 0), none) := by
      show dirScanLoop w _ 0 (mkFileSystems o.filesystem o.release) = _
      rw [hmk0]
      rfl
    simp only [mainScan, hfp, hd]
    by_cases hsk : o.skip_files
    · simp [hsk]
    · simp only [hsk, if_false, Bool.false_eq_true]
      have hfl : fileScanLoop w { db with filesystems := mkFileSystems o.filesystem o.release }
          ({ db with filesystems := mkFileSystems o.filesystem o.release } : DB).filesystems =
          ({ db with filesystems := mkFileSystems o.filesystem o.release }, none) := by
        show fileScanLoop w _ (mkFileSystems o.filesystem o.release) = _
        rw [hmk0]
        rfl
      rw [hfl]
      exact ⟨rfl, rfl⟩
  · rcases rest with _ | ⟨f2, rest2⟩
    · -- exactly one FileSystem row
      have hfp : fsPhase o (if o.overwrite then emptyDB else db) = (db, none) := by
        rw [hif, fsPhase, hflist]
      have hd : ∃ x, dirScanLoop w db 0 db.filesystems = ((db, x), none) := by
        rw [hflist]
        cases hres : resolveW w f1.name with
        | none =>
            rw [dirScanLoop_not_exists db 0 [] hres]
            exact ⟨0, rfl⟩
        | some tree =>
            have hne := hdirs f1 (by rw [hflist]; exact List.mem_cons_self ..) tree hres
            rcases hfil : db.dirRows.filter fun r => r.filesystem_id == f1.id with _ | ⟨r, rest⟩
            · exact absurd hfil hne
            · rcases rest with _ | ⟨r2, rest2⟩
              · rw [dirScanLoop_one db 0 [] hres hfil]
                exact ⟨r.id, rfl⟩
              · rw [dirScanLoop_many db 0 [] hres hfil]
                exact ⟨_, rfl⟩
      obtain ⟨x, hd⟩ := hd
      simp only [mainScan, hfp, hd]
      by_cases hsk : o.skip_files
      · simp [hsk]
      · simp only [hsk, if_false, Bool.false_eq_true]
        rw [fileScanLoop_no_new w db.filesystems db (hfiles (by simpa using hsk))]
        exact ⟨rfl, rfl⟩
    · -- two or more rows: the run aborts before touching anything
      have hfp : fsPhase o (if o.overwrite then emptyDB else db) =
          (db, some "MultipleResultsFound") := by
        rw [hif, fsPhase, hflist]
      rw [mainScan_err_of_fsPhase_err (w := w) hfp]
      exact ⟨rfl, rfl⟩

/-- C2: starting from an empty store, running the full catalog build twice in
succession against an unchanged machine leaves the Directory and File row
sets unchanged on the second run — no additional Directory or File rows are
created (with two or more configured roots the second run aborts at the
FileSystem query before creating anything; with one it takes the one/many
resume branches everywhere). -/
theorem c2_idempotent (o : Opts) (w : World) (db1 : DB)
    (h : mainScan o w emptyDB = (db1, none)) :
    (mainScan o w db1).1.dirRows = db1.dirRows ∧
    (mainScan o w db1).1.fileRows = db1.fileRows := by
  by_cases ho : o.overwrite
  · have heq : mainScan o w db1 = mainScan o w emptyDB := by
      simp only [mainScan, ho, if_true]
    rw [heq, h]
    exact ⟨rfl, rfl⟩
  · have ho' : o.overwrite = false := by simpa using ho
    have hfpE : fsPhase o (if o.overwrite then emptyDB else emptyDB) =
        ((⟨mkFileSystems o.filesystem o.release, [], []⟩ : DB), none) := by
      rw [if_neg ho]
      rfl
    simp only [mainScan, hfpE] at h
    set dbA : DB := ⟨mkFileSystems o.filesystem o.release, [], []⟩ with hdbA
    rcases hd : dirScanLoop w dbA 0 dbA.filesystems with ⟨⟨db2, l2⟩, _ | msg⟩
    on_goal 2 =>
      simp only [hd] at h
      exact absurd h (by simp)
    simp only [hd] at h
    have hpres := dirScanLoop_preserves w dbA.filesystems dbA 0
    rw [hd] at hpres
    have hfs2 : db2.filesystems = mkFileSystems o.filesystem o.release := hpres.1
    have hfr2 : db2.fileRows = ([] : List FileRow) := hpres.2
    have hdbAfs : dbA.filesystems = mkFileSystems o.filesystem o.release := rfl
    rcases hmk : mkFileSystems o.filesystem o.release with _ | ⟨f1, _ | ⟨f2, restf⟩⟩
    · -- no configured roots: both runs do nothing
      rw [hmk] at hfs2 hdbAfs
      have hd0 : dirScanLoop w dbA 0 dbA.filesystems = ((dbA, 0), none) := by
        rw [hdbAfs]
        rfl
      have hdb2 : db2 = dbA := (congrArg (fun p => p.1.1) (hd0.symm.trans hd)).symm
      have hfl : fileScanLoop w db2 db2.filesystems = (db2, none) := by
        rw [hfs2]
        rfl
      have hdb1 : db1 = db2 := by
        by_cases hsk : o.skip_files
        · rw [if_pos hsk] at h
          exact (congrArg Prod.fst h).symm
        · rw [if_neg hsk, hfl] at h
          exact (congrArg Prod.fst h).symm
      subst hdb1
      refine mainScan_second o w db1 ho' (by rw [hfs2, hmk]) ?_ ?_
      · intro fs hfs
        rw [hfs2] at hfs
        simp at hfs
      · intro _ fs hfs
        rw [hfs2] at hfs
        simp at hfs
    · -- exactly one configured root
      rw [hmk] at hfs2 hdbAfs
      cases hres : resolveW w f1.name with
      | none =>
          -- root path does not exist: both runs skip it entirely
          have hd0 : dirScanLoop w dbA 0 dbA.filesystems = ((dbA, 0), none) := by
            rw [hdbAfs, dirScanLoop_not_exists dbA 0 [] hres]
            rfl
          have hdb2 : db2 = dbA := (congrArg (fun p => p.1.1) (hd0.symm.trans hd)).symm
          have hfl : fileScanLoop w db2 db2.filesystems = (db2, none) := by
            rw [hfs2, fileScanLoop_not_exists db2 [] hres]
            rfl
          have hdb1 : db1 = db2 := by
            by_cases hsk : o.skip_files
            · rw [if_pos hsk] at h
              exact (congrArg Prod.fst h).symm
            · rw [if_neg hsk, hfl] at h
              exact (congrArg Prod.fst h).symm
          subst hdb1
          refine mainScan_second o w db1 ho' (by rw [hfs2, hmk]) ?_ ?_
          · intro fs hfs tree2 hres2
            rw [hfs2, List.mem_singleton] at hfs
            subst hfs
            rw [hres] at hres2
            exact absurd hres2 (by simp)
          · intro _ fs hfs tree2 hres2
            rw [hfs2, List.mem_singleton] at hfs
            subst hfs
            rw [hres] at hres2
            exact absurd hres2 (by simp)
      | some tree =>
          have hfil0 : dbA.dirRows.filter (fun r => r.filesystem_id == f1.id) = [] := rfl
          cases hdf : directoriesFull f1 tree (0 + 1) dbA.dirRows with
          | none =>
              have hd0 : dirScanLoop w dbA 0 dbA.filesystems =
                  ((dbA, 0), some "KeyError") := by
                rw [hdbAfs]
                exact dirScanLoop_zero_err dbA 0 [] hres hfil0 hdf
              have hcontra := congrArg (fun p => p.2) (hd0.symm.trans hd)
              exact absurd hcontra (by simp)
          | some stv =>
              have hd0 : dirScanLoop w dbA 0 dbA.filesystems =
                  (({ dbA with dirRows := stv.rows }, stv.lastId), none) := by
                conv_lhs => rw [hdbAfs]
                rw [dirScanLoop_zero dbA 0 [] hres hfil0 hdf]
                rfl
              have hdb2 : db2 = { dbA with dirRows := stv.rows } :=
                (congrArg (fun p => p.1.1) (hd0.symm.trans hd)).symm
              have hdr2 : db2.dirRows = stv.rows := by rw [hdb2]
              obtain ⟨rfs, hrfs, hrfsid⟩ := directoriesFull_fs_row hdf
              have hfilne : db2.dirRows.filter (fun r => r.filesystem_id == f1.id) ≠ [] := by
                rw [hdr2]
                exact filter_ne_nil_of_mem hrfs (by simp [hrfsid])
              by_cases hsk : o.skip_files
              · rw [if_pos hsk] at h
                have hdb1 : db1 = db2 := (congrArg Prod.fst h).symm
                subst hdb1
                refine mainScan_second o w db1 ho' (by rw [hfs2, hmk]) ?_ ?_
                · intro fs hfs tree2 hres2
                  rw [hfs2, List.mem_singleton] at hfs
                  subst hfs
                  exact hfilne
                · intro hskf
                  rw [hskf] at hsk
                  exact absurd hsk (by simp)
              · rw [if_neg hsk] at h
                rw [hfs2] at h
                have hcnt0 : fsFileCount db2 f1.id = 0 := fsFileCount_nil hfr2 f1.id
                rw [fileScanLoop_ingest db2 [] hres hcnt0] at h
                rcases hing : ingestLoop w db2 (db2.dirRows.filter fun d =>
                    d.filesystem_id == f1.id && decide (0 < d.nfiles)) with ⟨db3, _ | e3⟩
                on_goal 2 =>
                  simp only [hing] at h
                  exact absurd h (by simp)
                simp only [hing] at h
                have hdb1 : db1 = db3 := by
                  have : fileScanLoop w db3 [] = (db3, none) := rfl
                  rw [this] at h
                  exact (congrArg Prod.fst h).symm
                have hsome := ingestLoop_none_isSome w _ db2 (by rw [hing])
                have hspec := ingestLoop_isSome_spec w (db2.dirRows.filter fun d =>
                    d.filesystem_id == f1.id && decide (0 < d.nfiles)) db2 hsome
                rw [hing] at hspec
                have hdb3 : db3 = ⟨db2.filesystems, db2.dirRows, db2.fileRows ++
                    ingestDelta w db2 (db2.dirRows.filter fun d =>
                      d.filesystem_id == f1.id && decide (0 < d.nfiles))⟩ :=
                  congrArg Prod.fst hspec
                have hdr3 : db3.dirRows = db2.dirRows := by rw [hdb3]
                have hfs3 : db3.filesystems = db2.filesystems := by rw [hdb3]
                have hfr3 : db3.fileRows = ingestDelta w db2 (db2.dirRows.filter fun d =>
                    d.filesystem_id == f1.id && decide (0 < d.nfiles)) := by
                  rw [hdb3]
                  show db2.fileRows ++ _ = _
                  rw [hfr2]
                  rfl
                subst hdb1
                refine mainScan_second o w db1 ho' (by rw [hfs3, hfs2, hmk]) ?_ ?_
                · intro fs hfs tree2 hres2
                  rw [hfs3, hfs2, List.mem_singleton] at hfs
                  subst hfs
                  rw [hdr3]
                  exact hfilne
                · intro hskf fs hfs tree2 hres2 hcnt
                  rw [hfs3, hfs2, List.mem_singleton] at hfs
                  subst hfs
                  -- the second run's pending list is the first run's
                  have hL3 : db1.dirRows.filter (fun d =>
                      d.filesystem_id == fs.id && decide (0 < d.nfiles)) =
                      db2.dirRows.filter (fun d =>
                      d.filesystem_id == fs.id && decide (0 < d.nfiles)) := by
                    rw [hdr3]
                  -- zero count forces the first run's additions to be empty
                  have hδnil : ingestDelta w db2 (db2.dirRows.filter fun d =>
                      d.filesystem_id == fs.id && decide (0 < d.nfiles)) = [] := by
                    by_contra hne
                    have hall : ∀ fr ∈ db1.fileRows, (db1.dirRows.any fun dd =>
                        dd.id == fr.directory_id && dd.filesystem_id == fs.id) = true := by
                      intro fr hfr
                      rw [hfr3] at hfr
                      obtain ⟨d, hdL, hdid⟩ := ingestDelta_mem hfr
                      have hdmem := List.mem_filter.1 hdL
                      have hdfs : d.filesystem_id = fs.id := by
                        have := hdmem.2
                        simp only [Bool.and_eq_true, beq_iff_eq] at this
                        exact this.1
                      refine List.any_eq_true.2 ⟨d, ?_, ?_⟩
                      · rw [hdr3]
                        exact hdmem.1
                      · simp [hdid, hdfs]
                    have hfull : db1.fileRows.filter (fun fr => db1.dirRows.any fun dd =>
                        dd.id == fr.directory_id && dd.filesystem_id == fs.id) =
                        db1.fileRows := List.filter_eq_self.2 hall
                    have : fsFileCount db1 fs.id = db1.fileRows.length := by
                      unfold fsFileCount
                      rw [hfull]
                    rw [hcnt] at this
                    have hnil3 : db1.fileRows = [] := List.length_eq_zero.1 this.symm
                    rw [hfr3] at hnil3
                    exact hne hnil3
                  have hδnil3 : ingestDelta w db1 (db1.dirRows.filter fun d =>
                      d.filesystem_id == fs.id && decide (0 < d.nfiles)) = [] := by
                    rw [hL3, ingestDelta_congr hfs3 hdr3, hδnil]
                  have hsome3 : ∀ d ∈ db1.dirRows.filter (fun d =>
                      d.filesystem_id == fs.id && decide (0 < d.nfiles)),
                      (files w db1 d).isSome := by
                    intro d hdm
                    rw [hL3] at hdm
                    rw [files_congr hfs3 hdr3]
                    exact hsome d hdm
                  constructor
                  · rw [ingestLoop_isSome_spec w _ db1 hsome3]
                  · exact hδnil3
    · -- two or more configured roots: the second run aborts immediately
      rw [hmk] at hfs2 hdbAfs
      have hdb1fs : db1.filesystems = f1 :: f2 :: restf := by
        by_cases hsk : o.skip_files
        · rw [if_pos hsk] at h
          have hdb1 : db1 = db2 := (congrArg Prod.fst h).symm
          rw [hdb1]
          exact hfs2
        · rw [if_neg hsk] at h
          have hpf := fileScanLoop_preserves w db2.filesystems db2
          rw [h] at hpf
          exact hpf.1.trans hfs2
      have hfp2 : fsPhase o (if o.overwrite then emptyDB else db1) =
          (db1, some "MultipleResultsFound") := by
        rw [if_neg ho, fsPhase, hdb1fs]
      rw [mainScan_err_of_fsPhase_err (w := w) hfp2]
      exact ⟨rfl, rfl⟩

/-- Witness for C2 at a concrete configuration: the first run on the empty
store produces dbFull without error, and the second run over the same world
leaves the Directory and File row sets of dbFull unchanged. -/
theorem c2_witness :
    mainScan opts1 w1 emptyDB = (dbFull, none) ∧
    ((mainScan opts1 w1 dbFull).1.dirRows = dbFull.dirRows ∧
     (mainScan opts1 w1 dbFull).1.fileRows = dbFull.fileRows) :=
  ⟨rfl, c2_idempotent opts1 w1 dbFull rfl⟩
